import Mathlib

/-! Prior box layer (train_ori/prior_box_layer.cpp)

A shallow embedding of `PriorBoxLayer::LayerSetUp`, `PriorBoxLayer::Reshape` and
`PriorBoxLayer::Forward_cpu`, followed by theorems about them.

Conventions of the embedding.

* C++ `int` is `Int`; `/` on two `int`s is `Int.tdiv` (truncation toward zero) and a
  division by zero is undefined behaviour, rendered as `none`.  Values are assumed to stay
  inside the range of `int`.
* `float`, `double` and `Dtype` are `ℚ`: arithmetic is exact, rounding is not modelled.
  The one narrowing that the source writes out, `float center_x = ...`, is modelled by
  `toFloat` in a second rendering of the tiling (`emitBoxF`, `tilePassF`, `scaleBodyF`,
  `meanStoresF`), used where the rounding of the centres decides a property.
* A failed `CHECK_*` aborts the process; it is rendered as `none`.
* `for (int i = 0; i < n; ++i)` is a left fold over `List.range n.toNat` (no iteration when
  `n ≤ 0`).
* A run of stores `p[k++] = v` through a pointer `p` with `k` starting at `0` is recorded as
  the list of the values stored, in order: the list `[v₀, …, vₙ₋₁]` stands for
  `p[0] = v₀, …, p[n-1] = vₙ₋₁` and `k = n`.  `storeRun` then applies such a run to the
  memory of the blob, where a store outside the allocation is undefined behaviour (`none`).
-/

namespace PriorBox

/-! ## Data model -/

/-- Modelled from the spec: the message type `PriorBoxParameter` is declared outside the
source file.  `LayerSetUp` reads three fields of it: the repeated `min_size` (the scale
values, floating, of which `LayerSetUp` only requires `> 0` and which `Forward_cpu` converts
to `int`), the repeated `variance` (floating), and `offset` (a flag that the generation
does not read). -/
structure PriorBoxParameter where
  min_size : List ℚ
  variance : List ℚ
  offset : Bool
  deriving DecidableEq

/-- Modelled from the spec: the members of `PriorBoxLayer` are declared in the header
`prior_box_layer.hpp`, which is absent; these are the members the source file uses. -/
structure PriorBoxLayer where
  min_sizes_ : List ℚ
  aspect_ratios_ : List ℚ
  num_priors_ : Int
  variance_ : List ℚ
  offset_ : Bool
  deriving DecidableEq

/-! ## LayerSetUp -/

/-- Body of the loop of lines 17-20: `min_sizes_.push_back(v); CHECK_GT(min_sizes_.back(), 0)`. -/
def pushMinSize (min_sizes_ : List ℚ) (v : ℚ) : Option (List ℚ) :=
  let min_sizes_ := min_sizes_ ++ [v]
  if 0 < v then some min_sizes_ else none

/-- Body of the loop of lines 31-34, and lines 36-37:
`CHECK_GT(v, 0); variance_.push_back(v)`. -/
def pushVariance (variance_ : List ℚ) (v : ℚ) : Option (List ℚ) :=
  if 0 < v then some (variance_ ++ [v]) else none

/-- Lines 28-41 of `LayerSetUp`: the variance list of the layer. -/
def setUpVariance (variance : List ℚ) : Option (List ℚ) :=
  if 1 < variance.length then
    if variance.length = 4 then variance.foldlM pushVariance [] else none
  else if variance.length = 1 then
    match variance with
    | v :: _ => pushVariance [] v
    | [] => none
  else
    some [1 / 10]

/-- `PriorBoxLayer::LayerSetUp` on a freshly constructed layer (all vectors empty). -/
def LayerSetUp (p : PriorBoxParameter) : Option PriorBoxLayer :=
  if 0 < p.min_size.length then do
    let min_sizes_ ← p.min_size.foldlM pushMinSize []
    let aspect_ratios_ : List ℚ := [1]
    let num_priors_ : Int :=
      if min_sizes_.length = 3 then (aspect_ratios_.length : Int) * 21
      else (aspect_ratios_.length : Int)
    let variance_ ← setUpVariance p.variance
    pure
      { min_sizes_ := min_sizes_
        aspect_ratios_ := aspect_ratios_
        num_priors_ := num_priors_
        variance_ := variance_
        offset_ := p.offset }
  else none

/-! ## Reshape -/

/-- Line 57 of `Reshape`: `top_shape[2] = layer_width * layer_height * num_priors_ * 4`,
the length of one plane of the output blob. -/
def top_shape_2 (L : PriorBoxLayer) (layer_width layer_height : Int) : Int :=
  layer_width * layer_height * L.num_priors_ * 4

/-- `PriorBoxLayer::Reshape`: the shape given to `top[0]`, after `CHECK_GT(top_shape[2], 0)`.
The blob then holds `2 * top_shape[2]` values: the mean plane followed by the variance
plane. -/
def Reshape (L : PriorBoxLayer) (layer_width layer_height : Int) : Option (List Int) :=
  let top_shape : List Int := [1, 2, top_shape_2 L layer_width layer_height]
  if 0 < top_shape_2 L layer_width layer_height then some top_shape else none

/-! ## Forward_cpu -/

/-- Conversion `int min_size_ = min_sizes_[s]` of line 81: a floating value is truncated
toward zero. -/
def toInt (x : ℚ) : Int := Int.tdiv x.num x.den

/-- Body of the innermost loop (lines 91-96, 109-114 and 127-132, which are identical):
the centre of the box and the four stores `top_data[idx++] = ...`. -/
def emitBox (min_size_ step img_width img_height : Int) (h w : Nat)
    (top_data : List ℚ) : List ℚ :=
  let center_x : ℚ := ((w : ℚ) + 1 / 2) * (step : ℚ)
  let center_y : ℚ := ((h : ℚ) + 1 / 2) * (step : ℚ)
  let top_data := top_data ++ [(center_x - (min_size_ : ℚ) / 2) / (img_width : ℚ)]
  let top_data := top_data ++ [(center_y - (min_size_ : ℚ) / 2) / (img_height : ℚ)]
  let top_data := top_data ++ [(center_x + (min_size_ : ℚ) / 2) / (img_width : ℚ)]
  let top_data := top_data ++ [(center_y + (min_size_ : ℚ) / 2) / (img_height : ℚ)]
  top_data

/-- One tiling pass (lines 85-98, 103-116 and 121-134, which differ only in `step`):
`num_w = img_width / step`, `num_h = img_height / step` and the two nested loops. -/
def tilePass (min_size_ step img_width img_height : Int) (top_data : List ℚ) :
    Option (List ℚ) :=
  if step = 0 then none
  else
    let num_w := Int.tdiv img_width step
    let num_h := Int.tdiv img_height step
    some ((List.range num_h.toNat).foldl
      (fun top_data h =>
        (List.range num_w.toNat).foldl
          (fun top_data w => emitBox min_size_ step img_width img_height h w top_data)
          top_data)
      top_data)

/-- Body of the loop over the scales (lines 81-135): the `if (min_size_ == 32)` statement,
followed by the separate `if (min_size_ == 64) ... else ...` statement. -/
def scaleBody (img_width img_height : Int) (top_data : List ℚ) (min_size : ℚ) :
    Option (List ℚ) := do
  let min_size_ : Int := toInt min_size
  let top_data ←
    if min_size_ = 32 then
      tilePass min_size_ (Int.tdiv min_size_ 4) img_width img_height top_data
    else pure top_data
  if min_size_ = 64 then
    tilePass min_size_ (Int.tdiv min_size_ 2) img_width img_height top_data
  else
    tilePass min_size_ min_size_ img_width img_height top_data

/-- Lines 75-136: the run of stores `top_data[idx++] = ...` made by the loop over
`min_sizes_`, starting from `idx = 0`.  The final `idx` is the length of the result. -/
def meanStores (min_sizes_ : List ℚ) (img_width img_height : Int) : Option (List ℚ) :=
  min_sizes_.foldlM (scaleBody img_width img_height) []

/-- Modelled from the spec: `caffe_set(N, alpha, Y)` is a library routine defined outside
the source file; it sets the `N` slots `Y[0], ..., Y[N-1]` to `alpha`.  The result is the
run of stores through `Y`. -/
def caffe_set (N : Int) (alpha : ℚ) : List ℚ :=
  List.replicate N.toNat alpha

/-- Lines 143-153: the run of stores `top_data[count] = variance_[j]; ++count` made by the
four nested loops, starting from `count = 0`.  Reading `variance_[j]` past the end of the
vector is undefined behaviour. -/
def varianceStores (variance_ : List ℚ) (num_priors_ layer_width layer_height : Int) :
    Option (List ℚ) :=
  (List.range layer_height.toNat).foldlM
    (fun top_data _ =>
      (List.range layer_width.toNat).foldlM
        (fun top_data _ =>
          (List.range num_priors_.toNat).foldlM
            (fun top_data _ =>
              (List.range 4).foldlM
                (fun top_data j => do
                  let v ← variance_[j]?
                  pure (top_data ++ [v]))
                top_data)
            top_data)
        top_data)
    []

/-- Effect on the memory `mem` of a run of stores `p[0] = v₀, p[1] = v₁, ...` through the
pointer `p = mem + off`.  A store outside the allocation is undefined behaviour. -/
def storeRun (mem : List ℚ) (off : Nat) (vals : List ℚ) : Option (List ℚ) :=
  if off + vals.length ≤ mem.length then
    some (mem.take off ++ vals ++ mem.drop (off + vals.length))
  else none

/-- `PriorBoxLayer::Forward_cpu`.  `layer_width`, `layer_height` are the extents of
`bottom[0]`, `img_width`, `img_height` those of `bottom[1]`, and `top` is the data of
`top[0]` on entry; the result is the data of `top[0]` on exit. -/
def Forward_cpu (L : PriorBoxLayer) (layer_width layer_height img_width img_height : Int)
    (top : List ℚ) : Option (List ℚ) := do
  let dim : Int := layer_height * layer_width * L.num_priors_ * 4
  let stores ← meanStores L.min_sizes_ img_width img_height
  let top ← storeRun top 0 stores
  -- `top_data += top[0]->offset(0, 1)`: the start of the second plane
  let offset_0_1 : Nat := (top_shape_2 L layer_width layer_height).toNat
  if L.variance_.length = 1 then do
    let v ← L.variance_[0]?
    storeRun top offset_0_1 (caffe_set dim v)
  else do
    let stores ← varianceStores L.variance_ L.num_priors_ layer_width layer_height
    storeRun top offset_0_1 stores

/-- The mean plane of the data of `top[0]`, for a plane of length `n`. -/
def meanPlane (n : Nat) (top : List ℚ) : List ℚ := top.take n

/-- The variance plane of the data of `top[0]`, for a plane of length `n`. -/
def variancePlane (n : Nat) (top : List ℚ) : List ℚ := (top.drop n).take n

/-! ## The tiling with the centres narrowed to `float` -/

/-- Rounding of a rational to the nearest integer, a tie going to the even one. -/
def roundHalfEven (x : ℚ) : Int :=
  let f := ⌊x⌋
  let r := x - f
  if r < 1 / 2 then f
  else if 1 / 2 < r then f + 1
  else if f % 2 = 0 then f else f + 1

/-- Conversion of a `double` to `float`, as in `float center_x = ...` (lines 91-92, 109-110
and 127-128): rounding to the nearest number with a significand of 24 bits, a tie going to
the even significand.  For `2 ^ e ≤ |x| < 2 ^ (e + 1)` these numbers are the multiples of
`2 ^ (e - 23)`.  The range of the exponent is not modelled (no overflow, no subnormal
numbers). -/
def toFloat (x : ℚ) : ℚ :=
  let e : Int := Int.log 2 |x|
  let ulp : ℚ := (2 : ℚ) ^ (e - 23)
  (roundHalfEven (x / ulp) : ℚ) * ulp

/-- Body of the innermost loop as `emitBox`, with the narrowing of the two centres to
`float` that the declarations `float center_x`, `float center_y` make.  The `double`
product `(w + 0.5) * step` is exact for the `int` operands that occur, and the `double`
arithmetic of the four stores is kept exact. -/
def emitBoxF (min_size_ step img_width img_height : Int) (h w : Nat)
    (top_data : List ℚ) : List ℚ :=
  let center_x : ℚ := toFloat (((w : ℚ) + 1 / 2) * (step : ℚ))
  let center_y : ℚ := toFloat (((h : ℚ) + 1 / 2) * (step : ℚ))
  let top_data := top_data ++ [(center_x - (min_size_ : ℚ) / 2) / (img_width : ℚ)]
  let top_data := top_data ++ [(center_y - (min_size_ : ℚ) / 2) / (img_height : ℚ)]
  let top_data := top_data ++ [(center_x + (min_size_ : ℚ) / 2) / (img_width : ℚ)]
  let top_data := top_data ++ [(center_y + (min_size_ : ℚ) / 2) / (img_height : ℚ)]
  top_data

/-- One tiling pass as `tilePass`, with the body `emitBoxF`. -/
def tilePassF (min_size_ step img_width img_height : Int) (top_data : List ℚ) :
    Option (List ℚ) :=
  if step = 0 then none
  else
    let num_w := Int.tdiv img_width step
    let num_h := Int.tdiv img_height step
    some ((List.range num_h.toNat).foldl
      (fun top_data h =>
        (List.range num_w.toNat).foldl
          (fun top_data w => emitBoxF min_size_ step img_width img_height h w top_data)
          top_data)
      top_data)

/-- Body of the loop over the scales as `scaleBody`, with the passes `tilePassF`. -/
def scaleBodyF (img_width img_height : Int) (top_data : List ℚ) (min_size : ℚ) :
    Option (List ℚ) := do
  let min_size_ : Int := toInt min_size
  let top_data ←
    if min_size_ = 32 then
      tilePassF min_size_ (Int.tdiv min_size_ 4) img_width img_height top_data
    else pure top_data
  if min_size_ = 64 then
    tilePassF min_size_ (Int.tdiv min_size_ 2) img_width img_height top_data
  else
    tilePassF min_size_ min_size_ img_width img_height top_data

/-- The stores of lines 75-136 as `meanStores`, with the centres narrowed to `float`. -/
def meanStoresF (min_sizes_ : List ℚ) (img_width img_height : Int) : Option (List ℚ) :=
  min_sizes_.foldlM (scaleBodyF img_width img_height) []

/-! ## Closed forms used in the statements and proofs -/

/-- The values stored by one row of a pass: the boxes of the columns `0, ..., num_w - 1`. -/
def rowValues (s t W H : Int) (h : Nat) : List ℚ :=
  (List.range (Int.tdiv W t).toNat).flatMap fun w => emitBox s t W H h w []

/-- The values stored by a whole pass: the rows `0, ..., num_h - 1`. -/
def passValues (s t W H : Int) : List ℚ :=
  (List.range (Int.tdiv H t).toNat).flatMap fun h => rowValues s t W H h

/-- The values stored for one scale, according to the truncated scale `m`. -/
def scaleValues (W H : Int) (m : Int) : Option (List ℚ) :=
  if m = 0 then none
  else if m = 32 then some (passValues 32 8 W H ++ passValues 32 32 W H)
  else if m = 64 then some (passValues 64 32 W H)
  else some (passValues m m W H)

/-- Reading of a run of stored values as consecutive boxes `(x_min, y_min, x_max, y_max)`:
every box has `x_max - x_min = a` and `y_max - y_min = b`, and no value is left over. -/
def boxesOfSize (a b : ℚ) : List ℚ → Bool
  | [] => true
  | x_min :: y_min :: x_max :: y_max :: rest =>
    decide (x_max - x_min = a) && decide (y_max - y_min = b) && boxesOfSize a b rest
  | _ => false

/-- Number of boxes that the body of the loop over the scales stores for a scale that
truncates to `m`, on an image of width `W` and height `H`: two passes (strides 8 and 32)
for 32, one pass at stride 32 for 64, one pass at stride `m` otherwise. -/
def boxCount (W H m : Nat) : Nat :=
  if m = 32 then (W / 8) * (H / 8) + (W / 32) * (H / 32)
  else if m = 64 then (W / 32) * (H / 32)
  else (W / m) * (H / m)

/-- The run of stores made by lines 139-154 through the pointer to the second plane:
that of `caffe_set` when `variance_` has one element, that of the four nested loops
otherwise. -/
def varianceRun (L : PriorBoxLayer) (layer_width layer_height : Int) : Option (List ℚ) :=
  if L.variance_.length = 1 then
    (L.variance_[0]?).map (caffe_set (layer_height * layer_width * L.num_priors_ * 4))
  else varianceStores L.variance_ L.num_priors_ layer_width layer_height

/-- The values stored by a whole pass of `tilePassF`. -/
def passValuesF (s t W H : Int) : List ℚ :=
  (List.range (Int.tdiv H t).toNat).flatMap fun h =>
    (List.range (Int.tdiv W t).toNat).flatMap fun w => emitBoxF s t W H h w []

/-- The list `l` repeats the pattern `pat` of length four. -/
def repeatsPattern (pat l : List ℚ) : Prop :=
  4 ∣ l.length ∧ ∀ k, k < l.length → l[k]? = pat[k % 4]?

/-! ## Auxiliary lemmas on lists -/

theorem foldl_append_flatMap {α β : Type} (f : α → List β) (l : List α) (init : List β) :
    l.foldl (fun acc x => acc ++ f x) init = init ++ l.flatMap f := by
  induction l generalizing init with
  | nil => simp
  | cons a l ih => simp [ih, List.append_assoc]

theorem foldlM_append_flatMap {α β : Type} (f : α → List β) (l : List α) (init : List β) :
    l.foldlM (fun acc x => (some (acc ++ f x) : Option (List β))) init
      = some (init ++ l.flatMap f) := by
  induction l generalizing init with
  | nil => simp
  | cons a l ih => simp [ih, List.append_assoc]

theorem length_flatMap_const {α β : Type} (f : α → List β) (c : Nat)
    (hf : ∀ x, (f x).length = c) (l : List α) :
    (l.flatMap f).length = c * l.length := by
  induction l with
  | nil => simp
  | cons a l ih => simp [ih, hf, Nat.mul_succ, Nat.add_comm]

/-- In a concatenation of `n` blocks of the same length `c`, the `i`-th block starts at
position `c * i`. -/
theorem drop_take_flatMap_range {β : Type} (f : Nat → List β) (c : Nat)
    (hf : ∀ x, (f x).length = c) (n i : Nat) (hi : i < n) :
    (((List.range n).flatMap f).drop (c * i)).take c = f i := by
  induction n with
  | zero => omega
  | succ n ih =>
    have hlen : ((List.range n).flatMap f).length = c * n := by
      simpa using length_flatMap_const f c hf (List.range n)
    rw [List.range_succ, List.flatMap_append, List.flatMap_singleton]
    rcases Nat.lt_succ_iff_lt_or_eq.mp hi with h | h
    · have h1 : c * i + c ≤ c * n := by
        calc c * i + c = c * (i + 1) := by ring
          _ ≤ c * n := Nat.mul_le_mul_left c h
      rw [List.drop_append_of_le_length (by omega), List.take_append_of_le_length]
      · exact ih h
      · simp only [List.length_drop, hlen]; omega
    · subst h
      rw [List.drop_append_of_le_length (by omega), List.drop_of_length_le (by omega)]
      simp [← hf i]

/-! ## The tiling passes in closed form -/

theorem emitBox_append (s t W H : Int) (h w : Nat) (top : List ℚ) :
    emitBox s t W H h w top = top ++ emitBox s t W H h w [] := by
  simp [emitBox]

theorem length_emitBox_nil (s t W H : Int) (h w : Nat) :
    (emitBox s t W H h w []).length = 4 := by
  simp [emitBox]

theorem length_rowValues (s t W H : Int) (h : Nat) :
    (rowValues s t W H h).length = 4 * (Int.tdiv W t).toNat := by
  simpa [rowValues] using
    length_flatMap_const (fun w => emitBox s t W H h w []) 4
      (fun w => length_emitBox_nil s t W H h w) (List.range (Int.tdiv W t).toNat)

theorem length_passValues (s t W H : Int) :
    (passValues s t W H).length = 4 * ((Int.tdiv W t).toNat * (Int.tdiv H t).toNat) := by
  have h := length_flatMap_const (fun h => rowValues s t W H h) (4 * (Int.tdiv W t).toNat)
    (fun h => length_rowValues s t W H h) (List.range (Int.tdiv H t).toNat)
  simp only [List.length_range] at h
  rw [passValues, h, Nat.mul_assoc]

theorem tilePass_of_ne (s t W H : Int) (top : List ℚ) (ht : t ≠ 0) :
    tilePass s t W H top = some (top ++ passValues s t W H) := by
  have inner : ∀ (h : Nat) (acc : List ℚ),
      (List.range (Int.tdiv W t).toNat).foldl
        (fun top_data w => emitBox s t W H h w top_data) acc
        = acc ++ rowValues s t W H h := by
    intro h acc
    have e : (fun (top_data : List ℚ) (w : Nat) => emitBox s t W H h w top_data)
        = fun top_data w => top_data ++ emitBox s t W H h w [] := by
      funext a w; exact emitBox_append s t W H h w a
    rw [e, foldl_append_flatMap, rowValues]
  simp only [tilePass, if_neg ht, inner, foldl_append_flatMap, passValues]

theorem tilePass_zero (s W H : Int) (top : List ℚ) : tilePass s 0 W H top = none := by
  simp [tilePass]

/-- The box of row `h` and column `w` is the block of four values that starts at position
`4 * (h * num_w + w)` of the pass. -/
theorem passValues_box (s t W H : Int) (h w : Nat)
    (hh : h < (Int.tdiv H t).toNat) (hw : w < (Int.tdiv W t).toNat) :
    ((passValues s t W H).drop (4 * (h * (Int.tdiv W t).toNat + w))).take 4
      = emitBox s t W H h w [] := by
  set nw := (Int.tdiv W t).toNat with hnw
  have hrow := drop_take_flatMap_range (fun h => rowValues s t W H h) (4 * nw)
    (fun h => length_rowValues s t W H h) (Int.tdiv H t).toNat h hh
  have hbox := drop_take_flatMap_range (fun w => emitBox s t W H h w []) 4
    (fun w => length_emitBox_nil s t W H h w) nw w hw
  change ((rowValues s t W H h).drop (4 * w)).take 4 = emitBox s t W H h w [] at hbox
  change ((passValues s t W H).drop (4 * nw * h)).take (4 * nw) = rowValues s t W H h at hrow
  rw [← hbox, ← hrow, List.drop_take, List.take_take, List.drop_drop]
  have e1 : min 4 (4 * nw - 4 * w) = 4 := by omega
  have e2 : 4 * nw * h + 4 * w = 4 * (h * nw + w) := by ring
  have e3 : 4 * w + 4 * nw * h = 4 * (h * nw + w) := by ring
  simp only [e1, e2, e3]

/-! ## The loop over the scales -/

theorem toInt_natCast (n : Nat) : toInt (n : ℚ) = (n : Int) := by
  simp [toInt]

theorem tdiv_toNat_natCast (a b : Nat) : (Int.tdiv (a : Int) (b : Int)).toNat = a / b := by
  rw [← Int.ofNat_tdiv, Int.toNat_natCast]

theorem scaleBody_eq (W H : Int) (top : List ℚ) (s : ℚ) :
    scaleBody W H top s = (scaleValues W H (toInt s)).map (fun v => top ++ v) := by
  unfold scaleBody scaleValues
  by_cases h0 : toInt s = 0
  · simp [h0, tilePass_zero]
  · by_cases h32 : toInt s = 32
    · have e4 : Int.tdiv 32 4 = 8 := by decide
      simp [h32, e4, tilePass_of_ne, List.append_assoc]
    · by_cases h64 : toInt s = 64
      · have e2 : Int.tdiv 64 2 = 32 := by decide
        simp [h64, e2, tilePass_of_ne]
      · simp [h0, h32, h64, tilePass_of_ne]

theorem foldlM_scaleBody (W H : Int) (l : List ℚ) (init : List ℚ) :
    l.foldlM (scaleBody W H) init
      = (l.foldlM (scaleBody W H) []).map (fun v => init ++ v) := by
  induction l generalizing init with
  | nil => simp
  | cons a l ih =>
    simp only [List.foldlM_cons, scaleBody_eq]
    cases hv : scaleValues W H (toInt a) with
    | none => simp
    | some v =>
      simp only [Option.map_some', Option.bind_eq_bind, Option.some_bind, List.nil_append]
      rw [ih (init ++ v), ih v]
      cases l.foldlM (scaleBody W H) [] with
      | none => simp
      | some r => simp [List.append_assoc]

theorem meanStores_cons (W H : Int) (s : ℚ) (l : List ℚ) :
    meanStores (s :: l) W H
      = (scaleValues W H (toInt s)).bind fun v =>
          (meanStores l W H).map fun r => v ++ r := by
  simp only [meanStores, List.foldlM_cons, scaleBody_eq]
  cases hv : scaleValues W H (toInt s) with
  | none => simp
  | some v =>
    simp only [Option.map_some', Option.bind_eq_bind, Option.some_bind, List.nil_append]
    rw [foldlM_scaleBody]

theorem meanStores_nil (W H : Int) : meanStores [] W H = some [] := by
  simp [meanStores]

theorem meanStores_singleton (W H : Int) (s : ℚ) :
    meanStores [s] W H = scaleValues W H (toInt s) := by
  rw [meanStores_cons, meanStores_nil]
  cases scaleValues W H (toInt s) <;> simp

theorem meanStores_append (A B : List ℚ) (W H : Int) :
    meanStores (A ++ B) W H
      = (meanStores A W H).bind fun a => (meanStores B W H).map fun b => a ++ b := by
  induction A with
  | nil =>
    rw [List.nil_append, meanStores_nil]
    cases meanStores B W H <;> simp
  | cons s A ih =>
    rw [List.cons_append, meanStores_cons, meanStores_cons, ih]
    cases scaleValues W H (toInt s) with
    | none => simp
    | some v =>
      cases meanStores A W H with
      | none => simp
      | some a =>
        cases meanStores B W H with
        | none => simp
        | some b => simp [List.append_assoc]

/-! ## LayerSetUp -/

theorem foldlM_pushMinSize (l init r : List ℚ)
    (h : l.foldlM pushMinSize init = some r) : r = init ++ l ∧ ∀ v ∈ l, 0 < v := by
  induction l generalizing init with
  | nil => simp at h; simp [h]
  | cons a l ih =>
    simp only [List.foldlM_cons, pushMinSize] at h
    by_cases ha : 0 < a
    · simp only [if_pos ha, Option.bind_eq_bind, Option.some_bind] at h
      obtain ⟨h1, h2⟩ := ih _ h
      refine ⟨by simp [h1], ?_⟩
      intro v hv
      rcases List.mem_cons.mp hv with rfl | hv
      · exact ha
      · exact h2 v hv
    · simp [if_neg ha] at h

theorem LayerSetUp_some (p : PriorBoxParameter) (L : PriorBoxLayer)
    (h : LayerSetUp p = some L) :
    0 < p.min_size.length ∧ L.min_sizes_ = p.min_size ∧ (∀ v ∈ p.min_size, 0 < v)
      ∧ L.num_priors_ = (if p.min_size.length = 3 then 21 else 1)
      ∧ setUpVariance p.variance = some L.variance_ ∧ L.offset_ = p.offset := by
  unfold LayerSetUp at h
  by_cases hlen : 0 < p.min_size.length
  · rw [if_pos hlen] at h
    cases hm : p.min_size.foldlM pushMinSize [] with
    | none => simp [hm] at h
    | some ms =>
      obtain ⟨h1, h2⟩ := foldlM_pushMinSize _ _ _ hm
      simp only [List.nil_append] at h1
      cases hv : setUpVariance p.variance with
      | none => simp [hm, hv] at h
      | some vs =>
        simp only [hm, hv, Option.bind_eq_bind, Option.some_bind, Option.pure_def,
          Option.some.injEq] at h
        subst h
        subst h1
        refine ⟨hlen, rfl, h2, ?_, rfl, rfl⟩
        by_cases h3 : p.min_size.length = 3 <;> simp [h3]
  · simp [if_neg hlen] at h

/-! ## Box sizes -/

theorem boxesOfSize_append (a b : ℚ) (l₁ l₂ : List ℚ)
    (h₁ : boxesOfSize a b l₁ = true) (h₂ : boxesOfSize a b l₂ = true) :
    boxesOfSize a b (l₁ ++ l₂) = true := by
  induction l₁ using boxesOfSize.induct a b with
  | case1 => simpa using h₂
  | case2 x0 y0 x1 y1 rest ih =>
    simp only [boxesOfSize, Bool.and_eq_true, decide_eq_true_eq] at h₁
    simp only [List.cons_append, boxesOfSize, Bool.and_eq_true, decide_eq_true_eq]
    exact ⟨⟨h₁.1.1, h₁.1.2⟩, ih h₁.2⟩
  | case3 l hnil hcons =>
    exfalso
    match l, hnil, hcons with
    | [], hnil, _ => exact hnil rfl
    | [_], _, _ => simp [boxesOfSize] at h₁
    | [_, _], _, _ => simp [boxesOfSize] at h₁
    | [_, _, _], _, _ => simp [boxesOfSize] at h₁
    | x0 :: y0 :: x1 :: y1 :: rest, _, hcons => exact hcons x0 y0 x1 y1 rest rfl

theorem boxesOfSize_flatMap {α : Type} (a b : ℚ) (f : α → List ℚ) (l : List α)
    (h : ∀ x, boxesOfSize a b (f x) = true) : boxesOfSize a b (l.flatMap f) = true := by
  induction l with
  | nil => simp [boxesOfSize]
  | cons x l ih =>
    rw [List.flatMap_cons]
    exact boxesOfSize_append a b _ _ (h x) ih

theorem boxesOfSize_emitBox (s t W H : Int) (h w : Nat) :
    boxesOfSize ((s : ℚ) / W) ((s : ℚ) / H) (emitBox s t W H h w []) = true := by
  simp only [emitBox, List.nil_append, List.cons_append, boxesOfSize, Bool.and_eq_true,
    decide_eq_true_eq, and_true]
  constructor <;> ring

theorem boxesOfSize_passValues (s t W H : Int) :
    boxesOfSize ((s : ℚ) / W) ((s : ℚ) / H) (passValues s t W H) = true :=
  boxesOfSize_flatMap _ _ _ _ fun h =>
    boxesOfSize_flatMap _ _ _ _ fun w => boxesOfSize_emitBox s t W H h w

theorem boxesOfSize_scaleValues (W H m : Int) (v : List ℚ)
    (h : scaleValues W H m = some v) : boxesOfSize ((m : ℚ) / W) ((m : ℚ) / H) v = true := by
  unfold scaleValues at h
  by_cases h0 : m = 0
  · simp [h0] at h
  · by_cases h32 : m = 32
    · subst h32
      simp only [if_neg h0, if_true, Option.some.injEq] at h
      subst h
      exact boxesOfSize_append _ _ _ _ (boxesOfSize_passValues 32 8 W H)
        (boxesOfSize_passValues 32 32 W H)
    · by_cases h64 : m = 64
      · subst h64
        simp only [if_neg h0, if_neg h32, if_true, Option.some.injEq] at h
        subst h
        exact boxesOfSize_passValues 64 32 W H
      · simp only [if_neg h0, if_neg h32, if_neg h64, Option.some.injEq] at h
        subst h
        exact boxesOfSize_passValues m m W H

/-! ## The effect of Forward_cpu on the blob -/

theorem storeRun_zero (top vals : List ℚ) (h : vals.length ≤ top.length) :
    storeRun top 0 vals = some (vals ++ top.drop vals.length) := by
  simp [storeRun, h]

theorem storeRun_plane (mem vals : List ℚ) (n : Nat) (hmem : mem.length = 2 * n)
    (hvals : vals.length = n) : storeRun mem n vals = some (mem.take n ++ vals) := by
  have h : n + vals.length ≤ mem.length := by omega
  have hd : mem.drop (n + vals.length) = [] := List.drop_of_length_le (by omega)
  simp [storeRun, h, hd]

theorem dim_eq_top_shape_2 (L : PriorBoxLayer) (lw lh : Int) :
    lh * lw * L.num_priors_ * 4 = top_shape_2 L lw lh := by
  unfold top_shape_2; ring

/-- Forward_cpu when `variance_` has one element: the mean stores, then `caffe_set`. -/
theorem Forward_cpu_single (L : PriorBoxLayer) (v : ℚ) (lw lh W H : Int) (top vals : List ℚ)
    (hv : L.variance_ = [v]) (hm : meanStores L.min_sizes_ W H = some vals)
    (hfit : vals.length ≤ top.length)
    (htop : top.length = 2 * (top_shape_2 L lw lh).toNat) :
    Forward_cpu L lw lh W H top
      = some ((vals ++ top.drop vals.length).take (top_shape_2 L lw lh).toNat
          ++ List.replicate (top_shape_2 L lw lh).toNat v) := by
  have hlen : (vals ++ top.drop vals.length).length = 2 * (top_shape_2 L lw lh).toNat := by
    rw [List.length_append, List.length_drop]; omega
  unfold Forward_cpu
  simp only [hm, Option.bind_eq_bind, Option.some_bind, storeRun_zero top vals hfit, hv,
    List.length_singleton, if_true, List.getElem?_cons_zero, dim_eq_top_shape_2]
  exact storeRun_plane _ _ _ hlen (by simp [caffe_set])

/-- Forward_cpu when `variance_` does not have one element: the mean stores, then the
stores of the four nested loops. -/
theorem Forward_cpu_loops (L : PriorBoxLayer) (lw lh W H : Int) (top vals vs : List ℚ)
    (hv : L.variance_.length ≠ 1) (hm : meanStores L.min_sizes_ W H = some vals)
    (hfit : vals.length ≤ top.length)
    (htop : top.length = 2 * (top_shape_2 L lw lh).toNat)
    (hvs : varianceStores L.variance_ L.num_priors_ lw lh = some vs)
    (hvl : vs.length = (top_shape_2 L lw lh).toNat) :
    Forward_cpu L lw lh W H top
      = some ((vals ++ top.drop vals.length).take (top_shape_2 L lw lh).toNat ++ vs) := by
  have hlen : (vals ++ top.drop vals.length).length = 2 * (top_shape_2 L lw lh).toNat := by
    rw [List.length_append, List.length_drop]; omega
  unfold Forward_cpu
  simp only [hm, Option.bind_eq_bind, Option.some_bind, storeRun_zero top vals hfit,
    if_neg hv, hvs]
  exact storeRun_plane _ _ _ hlen hvl

/-! ## The variance loops in closed form -/

theorem repeatsPattern_append (pat l₁ l₂ : List ℚ) (h₁ : repeatsPattern pat l₁)
    (h₂ : repeatsPattern pat l₂) : repeatsPattern pat (l₁ ++ l₂) := by
  obtain ⟨d₁, e₁⟩ := h₁
  obtain ⟨d₂, e₂⟩ := h₂
  refine ⟨by rw [List.length_append]; exact Dvd.dvd.add d₁ d₂, ?_⟩
  intro k hk
  rw [List.length_append] at hk
  by_cases hlt : k < l₁.length
  · rw [List.getElem?_append_left hlt]; exact e₁ k hlt
  · have hge : l₁.length ≤ k := Nat.le_of_not_lt hlt
    rw [List.getElem?_append_right hge, e₂ _ (by omega)]
    obtain ⟨c, hc⟩ := d₁
    have : (k - l₁.length) % 4 = k % 4 := by omega
    rw [this]

theorem repeatsPattern_flatMap {α : Type} (pat : List ℚ) (f : α → List ℚ) (l : List α)
    (h : ∀ x, repeatsPattern pat (f x)) : repeatsPattern pat (l.flatMap f) := by
  induction l with
  | nil => exact ⟨by simp, by simp⟩
  | cons x l ih =>
    rw [List.flatMap_cons]
    exact repeatsPattern_append pat _ _ (h x) ih

theorem repeatsPattern_self (pat : List ℚ) (h : pat.length = 4) : repeatsPattern pat pat := by
  refine ⟨by simp [h], ?_⟩
  intro k hk
  rw [Nat.mod_eq_of_lt (by omega)]

theorem varianceStores_four (variance_ : List ℚ) (np lw lh : Int)
    (hv : variance_.length = 4) :
    ∃ vs, varianceStores variance_ np lw lh = some vs
      ∧ vs.length = 4 * np.toNat * lw.toNat * lh.toNat
      ∧ repeatsPattern variance_ vs := by
  match variance_, hv with
  | [a, b, c, d], _ =>
    have inner : ∀ top_data : List ℚ,
        (List.range 4).foldlM
          (fun top_data j => do
            let v ← [a, b, c, d][j]?
            pure (top_data ++ [v])) top_data
          = some (top_data ++ [a, b, c, d]) := by
      intro top_data
      simp [List.range_succ]
    refine ⟨(List.range lh.toNat).flatMap fun _ => (List.range lw.toNat).flatMap fun _ =>
      (List.range np.toNat).flatMap fun _ => [a, b, c, d], ?_, ?_, ?_⟩
    · unfold varianceStores
      simp only [inner, foldlM_append_flatMap, List.nil_append]
    · have l1 := length_flatMap_const (fun _ : Nat => [a, b, c, d]) 4 (fun _ => rfl)
        (List.range np.toNat)
      have l2 := length_flatMap_const
        (fun _ : Nat => (List.range np.toNat).flatMap fun _ => [a, b, c, d]) _ (fun _ => l1)
        (List.range lw.toNat)
      have l3 := length_flatMap_const
        (fun _ : Nat => (List.range lw.toNat).flatMap fun _ =>
          (List.range np.toNat).flatMap fun _ => [a, b, c, d]) _ (fun _ => l2)
        (List.range lh.toNat)
      simpa using l3
    · exact repeatsPattern_flatMap _ _ _ fun _ => repeatsPattern_flatMap _ _ _ fun _ =>
        repeatsPattern_flatMap _ _ _ fun _ => repeatsPattern_self _ rfl

/-! ## Claims -/

/-- C1: for every configuration accepted by `LayerSetUp`, the number of priors per cell
`num_priors_` is 21 when the scale list has exactly three entries and 1 for every other
length, whatever the scale values are. -/
theorem C1_num_priors (p : PriorBoxParameter) (L : PriorBoxLayer)
    (h : LayerSetUp p = some L) :
    (p.min_size.length = 3 → L.num_priors_ = 21)
      ∧ (p.min_size.length ≠ 3 → L.num_priors_ = 1) := by
  obtain ⟨_, _, _, hn, _, _⟩ := LayerSetUp_some p L h
  constructor
  · intro h3; simpa [h3] using hn
  · intro h3; simpa [h3] using hn

theorem C1_num_priors_witness :
    LayerSetUp ⟨[32, 64, 128], [], false⟩ = some ⟨[32, 64, 128], [1], 21, [1 / 10], false⟩
      ∧ ((([32, 64, 128] : List ℚ).length = 3 → (21 : Int) = 21)
        ∧ (([32, 64, 128] : List ℚ).length ≠ 3 → (21 : Int) = 1)) :=
  ⟨by simp [LayerSetUp, pushMinSize, setUpVariance],
    C1_num_priors ⟨[32, 64, 128], [], false⟩ ⟨[32, 64, 128], [1], 21, [1 / 10], false⟩
      (by simp [LayerSetUp, pushMinSize, setUpVariance])⟩

/-- C2: for the single-scale list `[s]` with `s` a positive integer other than 32 and 64,
the stores of the generator are exactly those of one tiling pass at stride `s`, and they
number `4 * (floor(W/s) * floor(H/s))`, that is `floor(W/s) * floor(H/s)` boxes. -/
theorem C2_single_scale_fallback (s W H : Nat) (hs : 0 < s) (h32 : s ≠ 32) (h64 : s ≠ 64) :
    ∃ vals, meanStores [(s : ℚ)] (W : Int) (H : Int) = some vals
      ∧ tilePass (s : Int) (s : Int) (W : Int) (H : Int) [] = some vals
      ∧ vals.length = 4 * ((W / s) * (H / s)) := by
  have hs0 : (s : Int) ≠ 0 := by omega
  have hs32 : (s : Int) ≠ 32 := by omega
  have hs64 : (s : Int) ≠ 64 := by omega
  refine ⟨passValues s s W H, ?_, ?_, ?_⟩
  · rw [meanStores_singleton, toInt_natCast]
    simp [scaleValues, hs0, hs32, hs64]
  · rw [tilePass_of_ne _ _ _ _ _ hs0, List.nil_append]
  · rw [length_passValues, tdiv_toNat_natCast, tdiv_toNat_natCast]

theorem C2_single_scale_fallback_witness :
    ∃ vals, meanStores [((50 : Nat) : ℚ)] ((150 : Nat) : Int) ((100 : Nat) : Int) = some vals
      ∧ tilePass ((50 : Nat) : Int) ((50 : Nat) : Int) ((150 : Nat) : Int) ((100 : Nat) : Int) []
          = some vals
      ∧ vals.length = 4 * ((150 / 50) * (100 / 50)) :=
  C2_single_scale_fallback 50 150 100 (by decide) (by decide) (by decide)

/-- C3: for the single-scale list `[64]` the stores of the generator are exactly those of
one tiling pass of scale 64 at stride 32 (the pass at stride 64 does not run), and they
number `4 * (floor(W/32) * floor(H/32))`. -/
theorem C3_single_scale_64 (W H : Nat) :
    ∃ vals, meanStores [64] (W : Int) (H : Int) = some vals
      ∧ tilePass 64 32 (W : Int) (H : Int) [] = some vals
      ∧ vals.length = 4 * ((W / 32) * (H / 32)) := by
  have e : toInt 64 = 64 := by simpa using toInt_natCast 64
  refine ⟨passValues 64 32 W H, ?_, ?_, ?_⟩
  · rw [meanStores_singleton, e]
    simp [scaleValues]
  · rw [tilePass_of_ne _ _ _ _ _ (by decide), List.nil_append]
  · rw [length_passValues]
    have a := tdiv_toNat_natCast W 32
    have b := tdiv_toNat_natCast H 32
    simp only [Nat.cast_ofNat] at a b
    rw [a, b]

/-- C4: for the single-scale list `[32]` the stores of the generator are those of a
complete pass of scale 32 at stride 8 followed by those of a complete pass of scale 32 at
stride 32, so that `floor(W/8) * floor(H/8) + floor(W/32) * floor(H/32)` boxes are
stored. -/
theorem C4_single_scale_32 (W H : Nat) :
    ∃ a b, tilePass 32 8 (W : Int) (H : Int) [] = some a
      ∧ tilePass 32 32 (W : Int) (H : Int) [] = some b
      ∧ meanStores [32] (W : Int) (H : Int) = some (a ++ b)
      ∧ a.length = 4 * ((W / 8) * (H / 8))
      ∧ b.length = 4 * ((W / 32) * (H / 32))
      ∧ (a ++ b).length = 4 * ((W / 8) * (H / 8) + (W / 32) * (H / 32)) := by
  have e : toInt 32 = 32 := by simpa using toInt_natCast 32
  have a8 := tdiv_toNat_natCast W 8
  have b8 := tdiv_toNat_natCast H 8
  have a32 := tdiv_toNat_natCast W 32
  have b32 := tdiv_toNat_natCast H 32
  simp only [Nat.cast_ofNat] at a8 b8 a32 b32
  have la : (passValues 32 8 W H).length = 4 * ((W / 8) * (H / 8)) := by
    rw [length_passValues, a8, b8]
  have lb : (passValues 32 32 W H).length = 4 * ((W / 32) * (H / 32)) := by
    rw [length_passValues, a32, b32]
  refine ⟨passValues 32 8 W H, passValues 32 32 W H, ?_, ?_, ?_, la, lb, ?_⟩
  · rw [tilePass_of_ne _ _ _ _ _ (by decide), List.nil_append]
  · rw [tilePass_of_ne _ _ _ _ _ (by decide), List.nil_append]
  · rw [meanStores_singleton, e]
    simp [scaleValues]
  · rw [List.length_append, la, lb]; ring

/-- C5: in one tiling pass for scale `s` at stride `t` over an image of width `W` and
height `H`, with `numCols = floor(W/t)` and `numRows = floor(H/t)`, the pass stores
`numRows * numCols` boxes and the box of row `h < numRows` and column `w < numCols` is the
`(h * numCols + w)`-th of them: the four values stored from position
`4 * (h * numCols + w)` on are `((w+1/2)*t - s/2)/W`, `((h+1/2)*t - s/2)/H`,
`((w+1/2)*t + s/2)/W`, `((h+1/2)*t + s/2)/H`, in this order. -/
theorem C5_box_position_and_values (s t W H h w : Nat) (hh : h < H / t) (hw : w < W / t) :
    ∃ pass, tilePass (s : Int) (t : Int) (W : Int) (H : Int) [] = some pass
      ∧ pass.length = 4 * ((H / t) * (W / t))
      ∧ (pass.drop (4 * (h * (W / t) + w))).take 4
          = [(((w : ℚ) + 1 / 2) * t - s / 2) / W, (((h : ℚ) + 1 / 2) * t - s / 2) / H,
             (((w : ℚ) + 1 / 2) * t + s / 2) / W, (((h : ℚ) + 1 / 2) * t + s / 2) / H] := by
  have ht : (t : Int) ≠ 0 := by
    rcases Nat.eq_zero_or_pos t with h0 | h0
    · subst h0; simp at hh
    · omega
  refine ⟨passValues s t W H, ?_, ?_, ?_⟩
  · rw [tilePass_of_ne _ _ _ _ _ ht, List.nil_append]
  · rw [length_passValues, tdiv_toNat_natCast, tdiv_toNat_natCast, Nat.mul_comm (W / t)]
  · have := passValues_box s t W H h w (by rwa [tdiv_toNat_natCast])
      (by rwa [tdiv_toNat_natCast])
    rw [tdiv_toNat_natCast] at this
    rw [this]
    simp [emitBox]

theorem C5_box_position_and_values_witness :
    ∃ pass, tilePass ((64 : Nat) : Int) ((32 : Nat) : Int) ((256 : Nat) : Int)
        ((256 : Nat) : Int) [] = some pass
      ∧ pass.length = 4 * ((256 / 32) * (256 / 32))
      ∧ (pass.drop (4 * (2 * (256 / 32) + 3))).take 4
          = [((((3 : Nat) : ℚ) + 1 / 2) * (32 : Nat) - (64 : Nat) / 2) / (256 : Nat),
             ((((2 : Nat) : ℚ) + 1 / 2) * (32 : Nat) - (64 : Nat) / 2) / (256 : Nat),
             ((((3 : Nat) : ℚ) + 1 / 2) * (32 : Nat) + (64 : Nat) / 2) / (256 : Nat),
             ((((2 : Nat) : ℚ) + 1 / 2) * (32 : Nat) + (64 : Nat) / 2) / (256 : Nat)] :=
  C5_box_position_and_values 64 32 256 256 2 3 (by decide) (by decide)

/-- C6 fails as stated: the scale list `[5/2]` is accepted by `LayerSetUp`; on a 2 x 2 image
it yields the single box `(0, 0, 1, 1)`, of width `1 = 2/2`, not `(5/2)/2`. -/
theorem C6_counterexample :
    (LayerSetUp ⟨[5 / 2], [], false⟩).isSome = true
      ∧ meanStores [5 / 2] 2 2 = some [0, 0, 1, 1]
      ∧ boxesOfSize ((5 / 2) / 2) ((5 / 2) / 2) [0, 0, 1, 1] = false := by
  have e : toInt (5 / 2) = 2 := by norm_num [toInt]; decide
  refine ⟨?_, ?_, ?_⟩
  · simp [LayerSetUp, pushMinSize, setUpVariance]
  · rw [meanStores_singleton, e]
    simp [scaleValues, passValues, rowValues, emitBox, List.range_succ]
  · simp [boxesOfSize]
    norm_num

/-- C6 (amended): whenever the loop over the scales completes, its stores split, scale by
scale and in the configured order, into the stores made for each scale `s`, and every box
stored for `s` has `x_max - x_min = m / W` and `y_max - y_min = m / H`, where `m` is `s`
truncated to an integer (`m = s` for an integer scale), whichever pass stored it. -/
theorem C6_box_size_truncated (scales : List ℚ) (W H : Int) (out : List ℚ)
    (h : meanStores scales W H = some out) :
    ∃ chunks : List (List ℚ), out = chunks.flatten
      ∧ List.Forall₂
          (fun s chunk => scaleBody W H [] s = some chunk
            ∧ boxesOfSize ((toInt s : ℚ) / W) ((toInt s : ℚ) / H) chunk = true)
          scales chunks := by
  induction scales generalizing out with
  | nil =>
    rw [meanStores_nil] at h
    exact ⟨[], by simpa using h.symm, List.Forall₂.nil⟩
  | cons s l ih =>
    rw [meanStores_cons] at h
    cases hv : scaleValues W H (toInt s) with
    | none => simp [hv] at h
    | some v =>
      cases hr : meanStores l W H with
      | none => simp [hv, hr] at h
      | some r =>
        simp only [hv, hr, Option.some_bind, Option.map_some', Option.some.injEq] at h
        obtain ⟨chunks, hc, hf⟩ := ih r hr
        refine ⟨v :: chunks, by simp [← h, hc], List.Forall₂.cons ⟨?_, ?_⟩ hf⟩
        · simp [scaleBody_eq, hv]
        · exact boxesOfSize_scaleValues W H _ v hv

theorem C6_box_size_truncated_witness :
    ∃ chunks : List (List ℚ), [0, 0, 1, 1] = chunks.flatten
      ∧ List.Forall₂
          (fun s chunk => scaleBody 2 2 [] s = some chunk
            ∧ boxesOfSize ((toInt s : ℚ) / (2 : Int)) ((toInt s : ℚ) / (2 : Int)) chunk = true)
          [5 / 2] chunks :=
  C6_box_size_truncated [5 / 2] 2 2 [0, 0, 1, 1] (by
    have e : toInt (5 / 2) = 2 := by norm_num [toInt]; decide
    rw [meanStores_singleton, e]
    simp [scaleValues, passValues, rowValues, emitBox, List.range_succ])

/-- C7: with `scales = [64]`, `variance = [0.1]` and a 256 x 256 image, the layer is set up
with one prior per cell; the stride is `64 / 2 = 32` and `numCols = numRows = 256 / 32 = 8`;
the stores are those of the single pass at stride 32, 64 boxes, that is 256 values; the
first box is `(-0.0625, -0.0625, 0.1875, 0.1875)`, so coordinates are not clamped to
`[0, 1]`; and on every grid whose mean plane holds the 64 boxes, `Forward_cpu` leaves these
256 values at the start of the mean plane and `0.1` in every slot of the variance plane. -/
theorem C7_scenario_64 (layer_width layer_height : Nat) (top : List ℚ)
    (hgrid : 64 ≤ layer_width * layer_height)
    (htop : top.length = 2 * (layer_width * layer_height * 1 * 4)) :
    ∃ vals out,
      LayerSetUp ⟨[64], [0.1], false⟩ = some ⟨[64], [1], 1, [0.1], false⟩
        ∧ Int.tdiv 64 2 = 32 ∧ Int.tdiv 256 32 = 8
        ∧ tilePass 64 32 256 256 [] = some vals
        ∧ meanStores [64] 256 256 = some vals
        ∧ vals.length = 4 * (8 * 8)
        ∧ vals.take 4 = [-0.0625, -0.0625, 0.1875, 0.1875]
        ∧ Forward_cpu ⟨[64], [1], 1, [0.1], false⟩ layer_width layer_height 256 256 top
            = some out
        ∧ (meanPlane (layer_width * layer_height * 1 * 4) out).take 256 = vals
        ∧ variancePlane (layer_width * layer_height * 1 * 4) out
            = List.replicate (layer_width * layer_height * 1 * 4) 0.1 := by
  have e : toInt 64 = 64 := by simpa using toInt_natCast 64
  have hm : meanStores [64] 256 256 = some (passValues 64 32 256 256) := by
    rw [meanStores_singleton, e]; simp [scaleValues]
  have hl : (passValues 64 32 256 256).length = 256 := by
    rw [length_passValues]; decide
  have hn : (top_shape_2 ⟨[64], [1], 1, [0.1], false⟩ layer_width layer_height).toNat
      = layer_width * layer_height * 1 * 4 := by
    have : top_shape_2 ⟨[64], [1], 1, [0.1], false⟩ layer_width layer_height
        = ((layer_width * layer_height * 1 * 4 : Nat) : Int) := by
      simp [top_shape_2]
    rw [this, Int.toNat_natCast]
  have hF := Forward_cpu_single ⟨[64], [1], 1, [0.1], false⟩ 0.1 layer_width layer_height
    256 256 top (passValues 64 32 256 256) rfl hm (by rw [hl]; omega) (by rw [hn]; exact htop)
  rw [hn] at hF
  have hbox := passValues_box 64 32 256 256 0 0 (by decide) (by decide)
  have hX : ((passValues 64 32 256 256
      ++ top.drop (passValues 64 32 256 256).length).take
        (layer_width * layer_height * 1 * 4)).length
      = layer_width * layer_height * 1 * 4 := by
    rw [List.length_take, List.length_append, List.length_drop]; omega
  refine ⟨passValues 64 32 256 256, _, ?_, by decide, by decide, ?_, hm, ?_, ?_, hF, ?_, ?_⟩
  · norm_num [LayerSetUp, pushMinSize, setUpVariance, pushVariance]
  · rw [tilePass_of_ne _ _ _ _ _ (by decide), List.nil_append]
  · rw [hl]
  · simp only [Nat.zero_mul, Nat.add_zero, Nat.mul_zero, List.drop_zero] at hbox
    rw [hbox]
    norm_num [emitBox]
  · have hmp : meanPlane (layer_width * layer_height * 1 * 4)
        ((passValues 64 32 256 256 ++ top.drop (passValues 64 32 256 256).length).take
          (layer_width * layer_height * 1 * 4)
          ++ List.replicate (layer_width * layer_height * 1 * 4) 0.1)
        = (passValues 64 32 256 256 ++ top.drop (passValues 64 32 256 256).length).take
          (layer_width * layer_height * 1 * 4) := by
      rw [meanPlane, List.take_append_of_le_length (by rw [hX]),
        List.take_of_length_le (by rw [hX])]
    have hmin : min 256 (layer_width * layer_height * 1 * 4) = 256 := by omega
    rw [hmp, List.take_take, hmin, List.take_append_of_le_length (by rw [hl]),
      List.take_of_length_le (by rw [hl])]
  · rw [variancePlane, List.drop_append_of_le_length (by rw [hX]),
      List.drop_of_length_le (by rw [hX]), List.nil_append,
      List.take_of_length_le (by rw [List.length_replicate])]

theorem C7_scenario_64_witness :
    ∃ vals out,
      LayerSetUp ⟨[64], [0.1], false⟩ = some ⟨[64], [1], 1, [0.1], false⟩
        ∧ Int.tdiv 64 2 = 32 ∧ Int.tdiv 256 32 = 8
        ∧ tilePass 64 32 256 256 [] = some vals
        ∧ meanStores [64] 256 256 = some vals
        ∧ vals.length = 4 * (8 * 8)
        ∧ vals.take 4 = [-0.0625, -0.0625, 0.1875, 0.1875]
        ∧ Forward_cpu ⟨[64], [1], 1, [0.1], false⟩ (8 : Nat) (8 : Nat) 256 256
            (List.replicate 512 0) = some out
        ∧ (meanPlane (8 * 8 * 1 * 4) out).take 256 = vals
        ∧ variancePlane (8 * 8 * 1 * 4) out = List.replicate (8 * 8 * 1 * 4) 0.1 :=
  C7_scenario_64 8 8 (List.replicate 512 0) (by decide) (by rw [List.length_replicate])

/-- C8: the stores made for the scale list `A ++ B` are the stores made for `A` followed by
the stores made for `B` (and the loop over `A ++ B` completes exactly when both loops do),
so the number of values stored is the sum of the two counts. -/
theorem C8_concatenation (A B : List ℚ) (W H : Int) :
    meanStores (A ++ B) W H
        = (meanStores A W H).bind (fun a => (meanStores B W H).map (fun b => a ++ b))
      ∧ ∀ a b, meanStores A W H = some a → meanStores B W H = some b →
          meanStores (A ++ B) W H = some (a ++ b)
            ∧ (a ++ b).length = a.length + b.length := by
  refine ⟨meanStores_append A B W H, ?_⟩
  intro a b ha hb
  rw [meanStores_append, ha, hb]
  simp

/-- C9: when `variance_` has exactly one element `v` and the stores of the tiling loops
stay inside the blob (of `2 * dim` values, `dim = layer_width * layer_height * num_priors_
* 4`), `Forward_cpu` completes and every slot `k < dim` of the variance plane holds `v`,
whatever the scales, the image extent and the number of values stored by the tiling
loops. -/
theorem C9_single_variance (L : PriorBoxLayer) (v : ℚ)
    (layer_width layer_height img_width img_height : Int) (top vals : List ℚ)
    (hv : L.variance_ = [v])
    (hm : meanStores L.min_sizes_ img_width img_height = some vals)
    (hfit : vals.length ≤ top.length)
    (htop : top.length = 2 * (layer_width * layer_height * L.num_priors_ * 4).toNat) :
    ∃ out, Forward_cpu L layer_width layer_height img_width img_height top = some out
      ∧ out.length = top.length
      ∧ ∀ k, k < (layer_width * layer_height * L.num_priors_ * 4).toNat →
          out[(layer_width * layer_height * L.num_priors_ * 4).toNat + k]? = some v := by
  have hF := Forward_cpu_single L v layer_width layer_height img_width img_height top vals
    hv hm hfit htop
  change top.length = 2 * (top_shape_2 L layer_width layer_height).toNat at htop
  change ∃ out, _ ∧ _ ∧ ∀ k, k < (top_shape_2 L layer_width layer_height).toNat →
    out[(top_shape_2 L layer_width layer_height).toNat + k]? = some v
  have hlen : ((vals ++ top.drop vals.length).take
      (top_shape_2 L layer_width layer_height).toNat).length
        = (top_shape_2 L layer_width layer_height).toNat := by
    rw [List.length_take, List.length_append, List.length_drop]; omega
  refine ⟨_, hF, ?_, ?_⟩
  · rw [List.length_append, hlen, List.length_replicate]; omega
  · intro k hk
    rw [List.getElem?_append_right (by omega), hlen, Nat.add_sub_cancel_left]
    simp [hk]

theorem C9_single_variance_witness :
    ∃ out, Forward_cpu ⟨[2], [1], 1, [1 / 10], false⟩ 1 1 4 2 (List.replicate 8 0) = some out
      ∧ out.length = (List.replicate 8 (0 : ℚ)).length
      ∧ ∀ k, k < ((1 : Int) * 1 * 1 * 4).toNat →
          out[((1 : Int) * 1 * 1 * 4).toNat + k]? = some (1 / 10) :=
  C9_single_variance ⟨[2], [1], 1, [1 / 10], false⟩ (1 / 10) 1 1 4 2 (List.replicate 8 0)
    [0, 0, 1 / 2, 1, 1 / 2, 0, 1, 1] rfl
    (by
      have e : toInt 2 = 2 := by simpa using toInt_natCast 2
      have d1 : Int.tdiv 4 2 = 2 := by decide
      have d2 : Int.toNat 2 = 2 := rfl
      rw [meanStores_singleton, e]
      norm_num [scaleValues, passValues, rowValues, emitBox, List.range_succ, d1, d2])
    (by simp) (by simp)

/-- C10: when `variance_` has exactly four elements (and `num_priors_` is not negative),
the four nested loops store exactly `layer_width * layer_height * num_priors_ * 4` values,
the length of one plane; `Forward_cpu` completes whenever the stores of the tiling loops
stay inside the blob, its result has the length of the blob, every slot `k` of the
variance plane holds `variance_[k mod 4]`, and the fill leaves the mean plane as the
tiling loops left it. -/
theorem C10_four_variances (L : PriorBoxLayer) (layer_width layer_height : Nat)
    (img_width img_height : Int) (top vals : List ℚ)
    (hv : L.variance_.length = 4) (hn : 0 ≤ L.num_priors_)
    (hm : meanStores L.min_sizes_ img_width img_height = some vals)
    (hfit : vals.length ≤ top.length)
    (htop : top.length = 2 * (layer_width * layer_height * L.num_priors_.toNat * 4)) :
    ∃ stores out,
      varianceStores L.variance_ L.num_priors_ layer_width layer_height = some stores
        ∧ stores.length = layer_width * layer_height * L.num_priors_.toNat * 4
        ∧ Forward_cpu L layer_width layer_height img_width img_height top = some out
        ∧ out.length = top.length
        ∧ (∀ k, k < layer_width * layer_height * L.num_priors_.toNat * 4 →
            out[layer_width * layer_height * L.num_priors_.toNat * 4 + k]?
              = L.variance_[k % 4]?)
        ∧ (∀ k, k < layer_width * layer_height * L.num_priors_.toNat * 4 →
            out[k]? = (vals ++ top.drop vals.length)[k]?) := by
  obtain ⟨vs, hvs, hvl, hpat⟩ :=
    varianceStores_four L.variance_ L.num_priors_ layer_width layer_height hv
  simp only [Int.toNat_natCast] at hvl
  have hnn : (top_shape_2 L layer_width layer_height).toNat
      = layer_width * layer_height * L.num_priors_.toNat * 4 := by
    have : top_shape_2 L layer_width layer_height
        = ((layer_width * layer_height * L.num_priors_.toNat * 4 : Nat) : Int) := by
      unfold top_shape_2
      push_cast
      rw [Int.toNat_of_nonneg hn]
    rw [this, Int.toNat_natCast]
  have hvl2 : vs.length = layer_width * layer_height * L.num_priors_.toNat * 4 := by
    rw [hvl]; ring
  have hF := Forward_cpu_loops L layer_width layer_height img_width img_height top vals vs
    (by omega) hm hfit (by rw [hnn]; exact htop) hvs (by rw [hnn]; exact hvl2)
  rw [hnn] at hF
  have hlen : ((vals ++ top.drop vals.length).take
      (layer_width * layer_height * L.num_priors_.toNat * 4)).length
        = layer_width * layer_height * L.num_priors_.toNat * 4 := by
    rw [List.length_take, List.length_append, List.length_drop]; omega
  refine ⟨vs, _, hvs, hvl2, hF, ?_, ?_, ?_⟩
  · rw [List.length_append, hlen, hvl2]; omega
  · intro k hk
    rw [List.getElem?_append_right (by omega), hlen, Nat.add_sub_cancel_left]
    exact hpat.2 k (by omega)
  · intro k hk
    rw [List.getElem?_append_left (by omega), List.getElem?_take_of_lt hk]

theorem C10_four_variances_witness :
    ∃ stores out,
      varianceStores [1 / 10, 1 / 10, 1 / 5, 1 / 5] 1 (2 : Nat) (1 : Nat) = some stores
        ∧ stores.length = 2 * 1 * (1 : Int).toNat * 4
        ∧ Forward_cpu ⟨[4], [1], 1, [1 / 10, 1 / 10, 1 / 5, 1 / 5], false⟩ (2 : Nat) (1 : Nat)
            4 4 (List.replicate 16 0) = some out
        ∧ out.length = (List.replicate 16 (0 : ℚ)).length
        ∧ (∀ k, k < 2 * 1 * (1 : Int).toNat * 4 →
            out[2 * 1 * (1 : Int).toNat * 4 + k]?
              = ([1 / 10, 1 / 10, 1 / 5, 1 / 5] : List ℚ)[k % 4]?)
        ∧ (∀ k, k < 2 * 1 * (1 : Int).toNat * 4 →
            out[k]? = ([0, 0, 1, 1] ++ (List.replicate 16 (0 : ℚ)).drop
              ([0, 0, 1, 1] : List ℚ).length)[k]?) :=
  C10_four_variances ⟨[4], [1], 1, [1 / 10, 1 / 10, 1 / 5, 1 / 5], false⟩ 2 1 4 4
    (List.replicate 16 0) [0, 0, 1, 1] rfl (by decide)
    (by
      have e : toInt 4 = 4 := by simpa using toInt_natCast 4
      rw [meanStores_singleton, e]
      norm_num [scaleValues, passValues, rowValues, emitBox, List.range_succ])
    (by simp) (by simp)

/-! ## Validation in closed form -/

theorem foldlM_pushMinSize_of_pos (l init : List ℚ) (h : ∀ v ∈ l, 0 < v) :
    l.foldlM pushMinSize init = some (init ++ l) := by
  induction l generalizing init with
  | nil => simp
  | cons a l ih =>
    have ha : 0 < a := h a (List.mem_cons_self a l)
    simp only [List.foldlM_cons, pushMinSize, if_pos ha, Option.bind_eq_bind, Option.some_bind]
    rw [ih _ fun v hv => h v (List.mem_cons_of_mem a hv)]
    simp

theorem foldlM_pushVariance_iff (l init r : List ℚ) :
    l.foldlM pushVariance init = some r ↔ r = init ++ l ∧ ∀ v ∈ l, 0 < v := by
  induction l generalizing init with
  | nil => simp [eq_comm]
  | cons a l ih =>
    simp only [List.foldlM_cons, pushVariance]
    by_cases ha : 0 < a
    · rw [if_pos ha]
      simp only [Option.bind_eq_bind, Option.some_bind, ih, List.append_assoc,
        List.singleton_append, List.mem_cons, forall_eq_or_imp, ha, true_and]
    · simp [if_neg ha, ha]

theorem LayerSetUp_isSome_iff (p : PriorBoxParameter) :
    (LayerSetUp p).isSome = true
      ↔ p.min_size ≠ [] ∧ (∀ v ∈ p.min_size, 0 < v)
          ∧ (setUpVariance p.variance).isSome = true := by
  constructor
  · intro h
    obtain ⟨L, hL⟩ := Option.isSome_iff_exists.mp h
    obtain ⟨h1, _, h3, _, h5, _⟩ := LayerSetUp_some p L hL
    exact ⟨List.ne_nil_of_length_pos h1, h3, by simp [h5]⟩
  · rintro ⟨h1, h2, h3⟩
    obtain ⟨vs, hvs⟩ := Option.isSome_iff_exists.mp h3
    have hlen : 0 < p.min_size.length := List.length_pos.mpr h1
    have hm := foldlM_pushMinSize_of_pos p.min_size [] h2
    simp [LayerSetUp, hlen, hm, hvs]

theorem setUpVariance_isSome_iff (variance : List ℚ) :
    (setUpVariance variance).isSome = true
      ↔ (variance.length = 0 ∨ variance.length = 1 ∨ variance.length = 4)
          ∧ ∀ v ∈ variance, 0 < v := by
  unfold setUpVariance
  match variance with
  | [] => simp
  | [a] =>
    by_cases ha : 0 < a <;> simp [pushVariance, ha]
  | [a, b] => simp
  | [a, b, c] => simp
  | [a, b, c, d] =>
    have hlen : ([a, b, c, d] : List ℚ).length = 4 := rfl
    have h1 : 1 < ([a, b, c, d] : List ℚ).length := by simp
    rw [if_pos h1, if_pos hlen, Option.isSome_iff_exists]
    constructor
    · rintro ⟨r, hr⟩
      exact ⟨Or.inr (Or.inr rfl), ((foldlM_pushVariance_iff _ _ _).mp hr).2⟩
    · rintro ⟨_, h⟩
      exact ⟨_, (foldlM_pushVariance_iff _ _ _).mpr ⟨rfl, h⟩⟩
  | a :: b :: c :: d :: e :: l =>
    simp

theorem setUpVariance_some (variance r : List ℚ) (h : setUpVariance variance = some r) :
    (variance = [] → r = [1 / 10]) ∧ (variance ≠ [] → r = variance) := by
  unfold setUpVariance at h
  match variance, h with
  | [], h => simp at h; simp [h]
  | [a], h =>
    by_cases ha : 0 < a
    · simp [pushVariance, ha] at h; simp [← h]
    · simp [pushVariance, ha] at h
  | [a, b], h => simp at h
  | [a, b, c], h => simp at h
  | [a, b, c, d], h =>
    have hlen : ([a, b, c, d] : List ℚ).length = 4 := rfl
    have h1 : 1 < ([a, b, c, d] : List ℚ).length := by simp
    rw [if_pos h1, if_pos hlen] at h
    have := ((foldlM_pushVariance_iff _ _ _).mp h).1
    simp [this]
  | a :: b :: c :: d :: e :: l, h => simp at h

/-! ## Claims on validation -/

/-- C11: `LayerSetUp` passes the validation of the scales exactly when the scale list is
not empty and every value is strictly positive (the variance list passing its own
validation); on success `min_sizes_` is the input list, same values in the same order;
with an empty list or a value `≤ 0` a `CHECK` fails and the set-up aborts. -/
theorem C11_scale_validation (p : PriorBoxParameter) :
    ((LayerSetUp p).isSome = true
        ↔ p.min_size ≠ [] ∧ (∀ v ∈ p.min_size, 0 < v)
            ∧ (setUpVariance p.variance).isSome = true)
      ∧ (∀ L, LayerSetUp p = some L → L.min_sizes_ = p.min_size)
      ∧ ((p.min_size = [] ∨ ∃ v ∈ p.min_size, v ≤ 0) → LayerSetUp p = none) := by
  refine ⟨LayerSetUp_isSome_iff p, ?_, ?_⟩
  · intro L hL
    exact (LayerSetUp_some p L hL).2.1
  · intro h
    cases hL : LayerSetUp p with
    | none => rfl
    | some L =>
      exfalso
      obtain ⟨h1, _, h3, _⟩ := LayerSetUp_some p L hL
      rcases h with h | ⟨v, hv, hle⟩
      · rw [h] at h1; simp at h1
      · exact absurd (h3 v hv) (not_lt.mpr hle)

/-- C12: the validation of the variance list (lines 28-41) succeeds exactly when the list
has 0, 1 or 4 values, all strictly positive; the result is `[0.1]` when no value is
supplied and the supplied list otherwise; a list of any other length, or a value `≤ 0`,
fails a `CHECK`; and the layer set up from a configuration holds this result. -/
theorem C12_variance_validation (variance : List ℚ) :
    ((setUpVariance variance).isSome = true
        ↔ (variance.length = 0 ∨ variance.length = 1 ∨ variance.length = 4)
            ∧ ∀ v ∈ variance, 0 < v)
      ∧ (variance = [] → setUpVariance variance = some [0.1])
      ∧ (∀ r, variance ≠ [] → setUpVariance variance = some r → r = variance)
      ∧ ((variance.length = 2 ∨ variance.length = 3 ∨ 5 ≤ variance.length
            ∨ ∃ v ∈ variance, v ≤ 0) → setUpVariance variance = none)
      ∧ (∀ p L, p.variance = variance → LayerSetUp p = some L →
            setUpVariance variance = some L.variance_) := by
  refine ⟨setUpVariance_isSome_iff variance, ?_, ?_, ?_, ?_⟩
  · intro h
    subst h
    norm_num [setUpVariance]
  · intro r hne h
    exact (setUpVariance_some variance r h).2 hne
  · intro h
    cases hr : setUpVariance variance with
    | none => rfl
    | some r =>
      exfalso
      have hs : (setUpVariance variance).isSome = true := by simp [hr]
      obtain ⟨hl, hp⟩ := (setUpVariance_isSome_iff variance).mp hs
      rcases h with h | h | h | ⟨v, hv, hle⟩
      · omega
      · omega
      · omega
      · exact absurd (hp v hv) (not_lt.mpr hle)
  · intro p L hp hL
    rw [← hp]
    exact (LayerSetUp_some p L hL).2.2.2.2.1

/-! ## The number of values stored -/

theorem toInt_eq_floor (s : ℚ) (h : 0 ≤ s) : toInt s = ⌊s⌋ := by
  rw [toInt, Int.tdiv_eq_ediv (Rat.num_nonneg.mpr h) (Int.ofNat_nonneg _), Rat.floor_def]

theorem one_le_toInt (s : ℚ) (h : 1 ≤ s) : 1 ≤ toInt s := by
  rw [toInt_eq_floor s (le_trans zero_le_one h)]
  exact Int.le_floor.mpr (by simpa using h)

theorem top_shape_2_toNat (L : PriorBoxLayer) (lw lh : Nat) (hn : 0 ≤ L.num_priors_) :
    (top_shape_2 L lw lh).toNat = lw * lh * L.num_priors_.toNat * 4 := by
  have : top_shape_2 L lw lh = ((lw * lh * L.num_priors_.toNat * 4 : Nat) : Int) := by
    unfold top_shape_2
    push_cast
    rw [Int.toNat_of_nonneg hn]
  rw [this, Int.toNat_natCast]

theorem length_scaleValues (W H : Nat) (m : Int) (hm : 1 ≤ m) :
    ∃ v, scaleValues W H m = some v ∧ v.length = 4 * boxCount W H m.toNat := by
  obtain ⟨n, rfl⟩ := Int.eq_ofNat_of_zero_le (le_trans (by decide) hm)
  have hn0 : (n : Int) ≠ 0 := by omega
  have a8 := tdiv_toNat_natCast W 8
  have b8 := tdiv_toNat_natCast H 8
  have a32 := tdiv_toNat_natCast W 32
  have b32 := tdiv_toNat_natCast H 32
  simp only [Nat.cast_ofNat] at a8 b8 a32 b32
  simp only [Int.toNat_natCast]
  unfold scaleValues boxCount
  by_cases h32 : n = 32
  · subst h32
    refine ⟨passValues 32 8 W H ++ passValues 32 32 W H, by simp, ?_⟩
    rw [List.length_append, length_passValues, length_passValues, a8, b8, a32, b32]
    simp only [if_true]; ring
  · have h32i : (n : Int) ≠ 32 := by omega
    by_cases h64 : n = 64
    · subst h64
      refine ⟨passValues 64 32 W H, by simp, ?_⟩
      rw [length_passValues, a32, b32]
      simp
    · have h64i : (n : Int) ≠ 64 := by omega
      refine ⟨passValues n n W H, by simp [hn0, h32i, h64i], ?_⟩
      rw [length_passValues, tdiv_toNat_natCast, tdiv_toNat_natCast]
      simp [h32, h64]

theorem length_meanStores (scales : List ℚ) (W H : Nat) (hs : ∀ s ∈ scales, 1 ≤ s) :
    ∃ vals, meanStores scales W H = some vals
      ∧ vals.length = 4 * (scales.map fun s => boxCount W H (toInt s).toNat).sum := by
  induction scales with
  | nil => exact ⟨[], meanStores_nil W H, by simp⟩
  | cons s l ih =>
    obtain ⟨r, hr, hrl⟩ := ih fun x hx => hs x (List.mem_cons_of_mem s hx)
    obtain ⟨v, hv, hvl⟩ :=
      length_scaleValues W H (toInt s) (one_le_toInt s (hs s (List.mem_cons_self s l)))
    refine ⟨v ++ r, by simp [meanStores_cons, hv, hr], ?_⟩
    rw [List.length_append, hvl, hrl, List.map_cons, List.sum_cons]; ring

theorem Forward_cpu_overrun (L : PriorBoxLayer) (lw lh W H : Int) (top vals : List ℚ)
    (hm : meanStores L.min_sizes_ W H = some vals) (h : top.length < vals.length) :
    Forward_cpu L lw lh W H top = none := by
  have hs : storeRun top 0 vals = none := by
    rw [storeRun, if_neg (by omega)]
  simp only [Forward_cpu, hm, hs, Option.bind_eq_bind, Option.some_bind, Option.none_bind]

/-- C13, evaluated at the failing input: the configuration with the single scale 16 is
accepted and has one prior per cell; for a 1 x 1 grid `Reshape` gives planes of 4 values,
a blob of 8; on a 32 x 32 image the tiling loops store 4 boxes, that is 16 values, more
than the plane and more than the blob holds, so `Forward_cpu` stores outside the blob. -/
theorem C13_plane_overrun :
    ∃ vals, LayerSetUp ⟨[16], [], false⟩ = some ⟨[16], [1], 1, [1 / 10], false⟩
      ∧ Reshape ⟨[16], [1], 1, [1 / 10], false⟩ 1 1 = some [1, 2, 4]
      ∧ meanStores [16] 32 32 = some vals
      ∧ vals.length = 16
      ∧ (top_shape_2 ⟨[16], [1], 1, [1 / 10], false⟩ 1 1).toNat < vals.length
      ∧ Forward_cpu ⟨[16], [1], 1, [1 / 10], false⟩ 1 1 32 32 (List.replicate 8 0) = none := by
  have e : toInt 16 = 16 := by simpa using toInt_natCast 16
  have hl : (passValues 16 16 32 32).length = 16 := by
    rw [length_passValues]; decide
  have hm : meanStores [16] 32 32 = some (passValues 16 16 32 32) := by
    rw [meanStores_singleton, e]; simp [scaleValues]
  refine ⟨passValues 16 16 32 32, ?_, ?_, hm, hl, ?_, ?_⟩
  · simp [LayerSetUp, pushMinSize, setUpVariance]
  · simp [Reshape, top_shape_2]
  · rw [hl]; simp [top_shape_2]
  · exact Forward_cpu_overrun _ _ _ _ _ _ _ hm (by rw [hl, List.length_replicate]; decide)

/-! ## Stores past the mean plane -/

/-- C14, evaluated at the failing input: with `scales = [32, 64]` (one prior per cell) and
a 32 x 32 image the tiling loops store 18 boxes, that is 72 values.  On the 1 x 1 grid
(grid = image / 32) the planes have 4 values and the stores run past the end of the blob;
on a 4 x 4 grid the planes have 64 values, the stores run past the mean plane into the
variance plane and `Forward_cpu` completes, keeping the first 64 values in the mean plane.
In neither case is the count compared with the plane length or anything raised. -/
theorem C14_no_capacity_error :
    ∃ vals out,
      LayerSetUp ⟨[32, 64], [], false⟩ = some ⟨[32, 64], [1], 1, [1 / 10], false⟩
        ∧ meanStores [32, 64] 32 32 = some vals
        ∧ vals.length = 72
        ∧ Reshape ⟨[32, 64], [1], 1, [1 / 10], false⟩ 1 1 = some [1, 2, 4]
        ∧ Forward_cpu ⟨[32, 64], [1], 1, [1 / 10], false⟩ 1 1 32 32 (List.replicate 8 0)
            = none
        ∧ Reshape ⟨[32, 64], [1], 1, [1 / 10], false⟩ 4 4 = some [1, 2, 64]
        ∧ Forward_cpu ⟨[32, 64], [1], 1, [1 / 10], false⟩ 4 4 32 32 (List.replicate 128 0)
            = some out
        ∧ meanPlane 64 out = vals.take 64 := by
  have e32 : toInt 32 = 32 := by simpa using toInt_natCast 32
  have e64 : toInt 64 = 64 := by simpa using toInt_natCast 64
  have hm : meanStores [32, 64] 32 32
      = some ((passValues 32 8 32 32 ++ passValues 32 32 32 32) ++ passValues 64 32 32 32) := by
    rw [meanStores_cons, meanStores_singleton, e32, e64]
    simp [scaleValues]
  have hl : ((passValues 32 8 32 32 ++ passValues 32 32 32 32)
      ++ passValues 64 32 32 32).length = 72 := by
    rw [List.length_append, List.length_append, length_passValues, length_passValues,
      length_passValues]
    decide
  have hn : (top_shape_2 ⟨[32, 64], [1], 1, [1 / 10], false⟩ 4 4).toNat = 64 := by
    simp [top_shape_2]
  have hF := Forward_cpu_single ⟨[32, 64], [1], 1, [1 / 10], false⟩ (1 / 10) 4 4 32 32
    (List.replicate 128 0) _ rfl hm (by rw [hl, List.length_replicate]; decide)
    (by rw [List.length_replicate, hn])
  rw [hn] at hF
  have hlen : (((passValues 32 8 32 32 ++ passValues 32 32 32 32) ++ passValues 64 32 32 32
      ++ (List.replicate 128 (0 : ℚ)).drop
        ((passValues 32 8 32 32 ++ passValues 32 32 32 32)
          ++ passValues 64 32 32 32).length).take 64).length = 64 := by
    rw [List.length_take, List.length_append, hl]; simp
  refine ⟨_, _, ?_, hm, hl, ?_, ?_, ?_, hF, ?_⟩
  · simp [LayerSetUp, pushMinSize, setUpVariance]
  · simp [Reshape, top_shape_2]
  · exact Forward_cpu_overrun _ _ _ _ _ _ _ hm (by rw [hl, List.length_replicate]; decide)
  · simp [Reshape, top_shape_2]
  · rw [meanPlane, List.take_append_of_le_length (by rw [hlen]),
      List.take_of_length_le (by rw [hlen]),
      List.take_append_of_le_length (by rw [hl]; decide)]

/-! ## Independence from the members that Forward_cpu does not read -/

theorem LayerSetUp_offset (p : PriorBoxParameter) (o : Bool) :
    LayerSetUp { p with offset := o }
      = (LayerSetUp p).map fun L => { L with offset_ := o } := by
  unfold LayerSetUp
  by_cases hlen : 0 < p.min_size.length
  · simp only [if_pos hlen]
    cases p.min_size.foldlM pushMinSize [] with
    | none => rfl
    | some ms =>
      cases setUpVariance p.variance with
      | none => rfl
      | some vs => rfl
  · simp only [if_neg hlen]
    rfl

theorem Forward_cpu_congr (L₁ L₂ : PriorBoxLayer) (hs : L₁.min_sizes_ = L₂.min_sizes_)
    (hv : L₁.variance_ = L₂.variance_) (hn : L₁.num_priors_ = L₂.num_priors_)
    (lw lh W H : Int) (top : List ℚ) :
    Forward_cpu L₁ lw lh W H top = Forward_cpu L₂ lw lh W H top := by
  unfold Forward_cpu top_shape_2
  rw [hs, hv, hn]

/-- C15: the output does not depend on the offset flag.  If a configuration is accepted,
the configuration that differs from it only in `offset` is accepted too, and on the same
grid extent, image extent and initial blob `Forward_cpu` gives the same result for both
layers (the same mean and variance planes, or undefined behaviour for both). -/
theorem C15_offset_independence (p : PriorBoxParameter) (o : Bool) (L : PriorBoxLayer)
    (h : LayerSetUp p = some L)
    (layer_width layer_height img_width img_height : Int) (top : List ℚ) :
    ∃ L', LayerSetUp { p with offset := o } = some L'
      ∧ L'.offset_ = o
      ∧ Forward_cpu L' layer_width layer_height img_width img_height top
          = Forward_cpu L layer_width layer_height img_width img_height top := by
  refine ⟨{ L with offset_ := o }, ?_, rfl, ?_⟩
  · rw [LayerSetUp_offset, h]; rfl
  · exact Forward_cpu_congr _ _ rfl rfl rfl _ _ _ _ _

theorem C15_offset_independence_witness :
    ∃ L', LayerSetUp { ({ min_size := [4], variance := [], offset := false } :
          PriorBoxParameter) with offset := true } = some L'
      ∧ L'.offset_ = true
      ∧ Forward_cpu L' 1 1 4 4 (List.replicate 8 0)
          = Forward_cpu ⟨[4], [1], 1, [1 / 10], false⟩ 1 1 4 4 (List.replicate 8 0) :=
  C15_offset_independence ⟨[4], [], false⟩ true ⟨[4], [1], 1, [1 / 10], false⟩
    (by simp [LayerSetUp, pushMinSize, setUpVariance]) 1 1 4 4 (List.replicate 8 0)

/-! ## Running Forward_cpu again -/

theorem storeRun_eq_some (mem vals r : List ℚ) (off : Nat) (h : storeRun mem off vals = some r) :
    off + vals.length ≤ mem.length
      ∧ r = mem.take off ++ vals ++ mem.drop (off + vals.length) := by
  unfold storeRun at h
  by_cases hle : off + vals.length ≤ mem.length
  · rw [if_pos hle] at h
    exact ⟨hle, (Option.some.inj h).symm⟩
  · rw [if_neg hle] at h
    exact absurd h (by simp)

theorem length_storeRun (mem vals r : List ℚ) (off : Nat) (h : storeRun mem off vals = some r) :
    r.length = mem.length := by
  obtain ⟨hle, rfl⟩ := storeRun_eq_some mem vals r off h
  simp only [List.length_append, List.length_take, List.length_drop]
  omega

theorem getElem?_storeRun (mem vals r : List ℚ) (off i : Nat)
    (h : storeRun mem off vals = some r) :
    r[i]? = if i < off then mem[i]?
      else if i < off + vals.length then vals[i - off]? else mem[i]? := by
  obtain ⟨hle, rfl⟩ := storeRun_eq_some mem vals r off h
  have htake : (mem.take off).length = off := by
    rw [List.length_take]; omega
  by_cases h1 : i < off
  · rw [if_pos h1, List.append_assoc, List.getElem?_append_left (by omega),
      List.getElem?_take_of_lt h1]
  · rw [if_neg h1, List.append_assoc, List.getElem?_append_right (by omega), htake]
    by_cases h2 : i < off + vals.length
    · rw [if_pos h2, List.getElem?_append_left (by omega)]
    · rw [if_neg h2, List.getElem?_append_right (by omega), List.getElem?_drop]
      congr 1
      omega

/-- Storing the same two runs again, over the memory they produced, changes nothing. -/
theorem storeRun_twice (top vals vs t out : List ℚ) (n : Nat)
    (h1 : storeRun top 0 vals = some t) (h2 : storeRun t n vs = some out) :
    ∃ t', storeRun out 0 vals = some t' ∧ storeRun t' n vs = some out := by
  have l1 := length_storeRun _ _ _ _ h1
  have l2 := length_storeRun _ _ _ _ h2
  have b1 := (storeRun_eq_some _ _ _ _ h1).1
  have b2 := (storeRun_eq_some _ _ _ _ h2).1
  have hb1 : 0 + vals.length ≤ out.length := by omega
  have e1 : storeRun out 0 vals
      = some (out.take 0 ++ vals ++ out.drop (0 + vals.length)) := by
    rw [storeRun, if_pos hb1]
  have l3 := length_storeRun _ _ _ _ e1
  have hb2 : n + vs.length ≤ (out.take 0 ++ vals ++ out.drop (0 + vals.length)).length := by
    omega
  have e2 : storeRun (out.take 0 ++ vals ++ out.drop (0 + vals.length)) n vs
      = some ((out.take 0 ++ vals ++ out.drop (0 + vals.length)).take n ++ vs
          ++ (out.take 0 ++ vals ++ out.drop (0 + vals.length)).drop (n + vs.length)) := by
    rw [storeRun, if_pos hb2]
  refine ⟨_, e1, ?_⟩
  rw [e2]
  congr 1
  apply List.ext_getElem?
  intro i
  rw [getElem?_storeRun _ _ _ _ i e2, getElem?_storeRun _ _ _ _ i e1,
    getElem?_storeRun _ _ _ _ i h2, getElem?_storeRun _ _ _ _ i h1]
  simp only [Nat.zero_add, Nat.not_lt_zero, if_false, Nat.sub_zero]
  split_ifs <;> rfl

theorem Forward_cpu_eq (L : PriorBoxLayer) (lw lh W H : Int) (top : List ℚ) :
    Forward_cpu L lw lh W H top
      = (meanStores L.min_sizes_ W H).bind fun vals =>
          (storeRun top 0 vals).bind fun t =>
            (varianceRun L lw lh).bind fun vs =>
              storeRun t (top_shape_2 L lw lh).toNat vs := by
  unfold Forward_cpu varianceRun
  simp only [Option.bind_eq_bind]
  cases meanStores L.min_sizes_ W H with
  | none => rfl
  | some vals =>
    simp only [Option.some_bind]
    cases storeRun top 0 vals with
    | none => rfl
    | some t =>
      simp only [Option.some_bind]
      by_cases hv : L.variance_.length = 1
      · simp only [if_pos hv]
        cases L.variance_[0]? <;> rfl
      · simp only [if_neg hv]

theorem Forward_cpu_again (L : PriorBoxLayer) (lw lh W H : Int) (top out : List ℚ)
    (h : Forward_cpu L lw lh W H top = some out) :
    Forward_cpu L lw lh W H out = some out := by
  rw [Forward_cpu_eq] at h ⊢
  cases hm : meanStores L.min_sizes_ W H with
  | none => simp [hm] at h
  | some vals =>
    cases ht : storeRun top 0 vals with
    | none => simp [hm, ht] at h
    | some t =>
      cases hr : varianceRun L lw lh with
      | none => simp [hm, ht, hr] at h
      | some vs =>
        simp only [hm, ht, hr, Option.some_bind] at h
        obtain ⟨t', e1, e2⟩ := storeRun_twice top vals vs t out _ ht h
        simp only [Option.some_bind, e1, e2]

/-- C16: generation is deterministic.  Two layers that agree on the scales, on the variance
list and on the number of priors give, on the same grid extent and image extent and on
zeroed blobs of the same size, the same result (the same mean and variance planes) and
the same number of stores in the tiling loops; and a second run over the result of a run
leaves it unchanged. -/
theorem C16_deterministic (L₁ L₂ : PriorBoxLayer) (hs : L₁.min_sizes_ = L₂.min_sizes_)
    (hv : L₁.variance_ = L₂.variance_) (hn : L₁.num_priors_ = L₂.num_priors_)
    (layer_width layer_height img_width img_height : Int) (m : Nat) :
    Forward_cpu L₁ layer_width layer_height img_width img_height (List.replicate m 0)
        = Forward_cpu L₂ layer_width layer_height img_width img_height (List.replicate m 0)
      ∧ (meanStores L₁.min_sizes_ img_width img_height).map List.length
          = (meanStores L₂.min_sizes_ img_width img_height).map List.length
      ∧ ∀ out,
          Forward_cpu L₁ layer_width layer_height img_width img_height (List.replicate m 0)
            = some out →
          Forward_cpu L₂ layer_width layer_height img_width img_height out = some out := by
  have hc := Forward_cpu_congr L₁ L₂ hs hv hn layer_width layer_height img_width img_height
  refine ⟨hc _, by rw [hs], ?_⟩
  intro out h
  rw [hc] at h
  exact Forward_cpu_again L₂ _ _ _ _ _ out h

theorem C16_deterministic_witness :
    Forward_cpu ⟨[4], [1], 1, [1 / 10], false⟩ 1 1 4 4 (List.replicate 8 0)
        = Forward_cpu ⟨[4], [1, 2], 1, [1 / 10], true⟩ 1 1 4 4 (List.replicate 8 0)
      ∧ (meanStores [4] 4 4).map List.length = (meanStores [4] 4 4).map List.length
      ∧ ∀ out,
          Forward_cpu ⟨[4], [1], 1, [1 / 10], false⟩ 1 1 4 4 (List.replicate 8 0) = some out →
          Forward_cpu ⟨[4], [1, 2], 1, [1 / 10], true⟩ 1 1 4 4 out = some out :=
  C16_deterministic ⟨[4], [1], 1, [1 / 10], false⟩ ⟨[4], [1, 2], 1, [1 / 10], true⟩
    rfl rfl rfl 1 1 4 4 8

/-! ## The three-scale configuration -/

/-- C17: for a configuration with `scales = [32, 64, 128]` (21 priors per cell), an image
whose width `W` and height `H` are positive multiples of 32 and the grid of extent
`(W/32) x (H/32)`, the tiling loops store
`(W/8)*(H/8) + 2*(W/32)*(H/32) + floor(W/128)*floor(H/128)` boxes, strictly fewer than the
`21*(W/32)*(H/32)` boxes the plane has room for: the mean plane is neither overrun nor
completely written. -/
theorem C17_three_scales (p : PriorBoxParameter) (L : PriorBoxLayer) (W H : Nat)
    (hp : p.min_size = [32, 64, 128]) (hL : LayerSetUp p = some L)
    (hW : 0 < W) (hH : 0 < H) (dW : 32 ∣ W) (dH : 32 ∣ H) :
    ∃ vals, L.num_priors_ = 21
      ∧ meanStores L.min_sizes_ W H = some vals
      ∧ vals.length
          = 4 * ((W / 8) * (H / 8) + 2 * ((W / 32) * (H / 32)) + (W / 128) * (H / 128))
      ∧ (W / 8) * (H / 8) + 2 * ((W / 32) * (H / 32)) + (W / 128) * (H / 128)
          < 21 * ((W / 32) * (H / 32))
      ∧ vals.length < (top_shape_2 L ((W / 32 : Nat) : Int) ((H / 32 : Nat) : Int)).toNat := by
  obtain ⟨_, hms, _, hnp, _, _⟩ := LayerSetUp_some p L hL
  rw [hp] at hms hnp
  have hnp21 : L.num_priors_ = 21 := by simpa using hnp
  have hs : ∀ s ∈ L.min_sizes_, 1 ≤ s := by
    intro s hs
    rw [hms] at hs
    simp only [List.mem_cons, List.mem_singleton, List.not_mem_nil, or_false] at hs
    rcases hs with rfl | rfl | rfl <;> norm_num
  obtain ⟨vals, hv, hl⟩ := length_meanStores L.min_sizes_ W H hs
  have e32 : toInt 32 = 32 := by simpa using toInt_natCast 32
  have e64 : toInt 64 = 64 := by simpa using toInt_natCast 64
  have e128 : toInt 128 = 128 := by simpa using toInt_natCast 128
  have hcount : vals.length
      = 4 * ((W / 8) * (H / 8) + 2 * ((W / 32) * (H / 32)) + (W / 128) * (H / 128)) := by
    have t32 : Int.toNat 32 = 32 := rfl
    have t64 : Int.toNat 64 = 64 := rfl
    have t128 : Int.toNat 128 = 128 := rfl
    rw [hl, hms]
    simp only [List.map_cons, List.map_nil, List.sum_cons, List.sum_nil, e32, e64, e128,
      boxCount, t32, t64, t128]
    norm_num
    ring
  obtain ⟨a, rfl⟩ := dW
  obtain ⟨b, rfl⟩ := dH
  have ha : 0 < a := by omega
  have hb : 0 < b := by omega
  have w8 : 32 * a / 8 = 4 * a := by omega
  have h8 : 32 * b / 8 = 4 * b := by omega
  have w32 : 32 * a / 32 = a := by omega
  have h32 : 32 * b / 32 = b := by omega
  have w128 : 32 * a / 128 ≤ a := by omega
  have h128 : 32 * b / 128 ≤ b := by omega
  have hab : 0 < a * b := Nat.mul_pos ha hb
  have hq : (32 * a / 128) * (32 * b / 128) ≤ a * b := Nat.mul_le_mul w128 h128
  have hlt : (32 * a / 8) * (32 * b / 8) + 2 * ((32 * a / 32) * (32 * b / 32))
      + (32 * a / 128) * (32 * b / 128) < 21 * ((32 * a / 32) * (32 * b / 32)) := by
    rw [w8, h8, w32, h32]
    have : 4 * a * (4 * b) = 16 * (a * b) := by ring
    rw [this]
    omega
  refine ⟨vals, hnp21, hv, hcount, hlt, ?_⟩
  rw [top_shape_2_toNat L _ _ (by rw [hnp21]; decide), hnp21, hcount]
  have : (21 : Int).toNat = 21 := rfl
  rw [this]
  have h2 := hlt
  have e : 32 * a / 32 * (32 * b / 32) * 21 * 4 = 4 * (21 * ((32 * a / 32) * (32 * b / 32))) := by
    ring
  rw [e]
  omega

theorem C17_three_scales_witness :
    ∃ vals, (21 : Int) = 21
      ∧ meanStores [32, 64, 128] ((1024 : Nat) : Int) ((1024 : Nat) : Int) = some vals
      ∧ vals.length
          = 4 * ((1024 / 8) * (1024 / 8) + 2 * ((1024 / 32) * (1024 / 32))
              + (1024 / 128) * (1024 / 128))
      ∧ (1024 / 8) * (1024 / 8) + 2 * ((1024 / 32) * (1024 / 32))
            + (1024 / 128) * (1024 / 128)
          < 21 * ((1024 / 32) * (1024 / 32))
      ∧ vals.length
          < (top_shape_2 ⟨[32, 64, 128], [1], 21, [1 / 10], false⟩
              ((1024 / 32 : Nat) : Int) ((1024 / 32 : Nat) : Int)).toNat :=
  C17_three_scales ⟨[32, 64, 128], [], false⟩ ⟨[32, 64, 128], [1], 21, [1 / 10], false⟩
    1024 1024 rfl (by simp [LayerSetUp, pushMinSize, setUpVariance]) (by decide) (by decide)
    (by decide) (by decide)

/-! ## Scales below one -/

/-- C18, evaluated at the failing input: the scale list `[1/2]` passes validation, line 81
truncates the scale to `min_size_ = 0`, which is neither 32 nor 64, so the last branch runs
with `step = 0` and `img_width / step` divides by zero. -/
theorem C18_division_by_zero :
    LayerSetUp ⟨[1 / 2], [], false⟩ = some ⟨[1 / 2], [1], 1, [1 / 10], false⟩
      ∧ toInt (1 / 2) = 0
      ∧ scaleBody 10 10 [] (1 / 2) = tilePass 0 0 10 10 []
      ∧ tilePass 0 0 10 10 [] = none
      ∧ meanStores [1 / 2] 10 10 = none
      ∧ Forward_cpu ⟨[1 / 2], [1], 1, [1 / 10], false⟩ 1 1 10 10 (List.replicate 8 0) = none := by
  have e : toInt (1 / 2) = 0 := by norm_num [toInt]; decide
  have hm : meanStores [1 / 2] 10 10 = none := by
    rw [meanStores_singleton, e]; rfl
  refine ⟨?_, e, ?_, tilePass_zero _ _ _ _, hm, ?_⟩
  · simp [LayerSetUp, pushMinSize, setUpVariance]
  · rw [scaleBody_eq, e, tilePass_zero]; rfl
  · rw [Forward_cpu_eq, hm]; rfl

/-! ## The fallback tiling -/

theorem emitBox_fallback (s W H h w : Nat) :
    emitBox (s : Int) (s : Int) (W : Int) (H : Int) h w []
      = [((w : ℚ) * s) / W, ((h : ℚ) * s) / H, (((w : ℚ) + 1) * s) / W,
          (((h : ℚ) + 1) * s) / H] := by
  have e1 : ((w : ℚ) + 1 / 2) * s - s / 2 = w * s := by ring
  have e2 : ((h : ℚ) + 1 / 2) * s - s / 2 = h * s := by ring
  have e3 : ((w : ℚ) + 1 / 2) * s + s / 2 = (w + 1) * s := by ring
  have e4 : ((h : ℚ) + 1 / 2) * s + s / 2 = (h + 1) * s := by ring
  simp only [emitBox, List.nil_append, List.cons_append, Int.cast_natCast, e1, e2, e3, e4]

theorem getElem?_of_drop_take (l : List ℚ) (k : Nat) (a b c d : ℚ)
    (h : (l.drop k).take 4 = [a, b, c, d]) :
    l[k]? = some a ∧ l[k + 1]? = some b ∧ l[k + 2]? = some c ∧ l[k + 3]? = some d := by
  have key : ∀ j, j < 4 → l[k + j]? = ([a, b, c, d] : List ℚ)[j]? := by
    intro j hj
    rw [← h, List.getElem?_take_of_lt hj, List.getElem?_drop]
  exact ⟨by simpa using key 0 (by decide), by simpa using key 1 (by decide),
    by simpa using key 2 (by decide), by simpa using key 3 (by decide)⟩

theorem mem_passValues (s t W H : Int) (x : ℚ) (hx : x ∈ passValues s t W H) :
    ∃ h w, h < (Int.tdiv H t).toNat ∧ w < (Int.tdiv W t).toNat
      ∧ x ∈ emitBox s t W H h w [] := by
  simp only [passValues, rowValues, List.mem_flatMap, List.mem_range] at hx
  obtain ⟨h, hh, w, hw, hx⟩ := hx
  exact ⟨h, w, hh, hw, hx⟩

theorem coordinate_bounds (W s w : Nat) (hW : 0 < W) (hw : w < W / s) :
    0 ≤ ((w : ℚ) * s) / W ∧ ((w : ℚ) * s) / W ≤ 1
      ∧ 0 ≤ (((w : ℚ) + 1) * s) / W ∧ (((w : ℚ) + 1) * s) / W ≤ 1 := by
  have hWq : (0 : ℚ) < W := by exact_mod_cast hW
  have h1 : (w + 1) * s ≤ W :=
    le_trans (Nat.mul_le_mul_right s hw) (Nat.div_mul_le_self W s)
  have h0 : w * s ≤ W := le_trans (Nat.mul_le_mul_right s (Nat.le_succ w)) h1
  have h1q : ((w : ℚ) + 1) * s ≤ W := by exact_mod_cast h1
  have h0q : (w : ℚ) * s ≤ W := by exact_mod_cast h0
  refine ⟨by positivity, (div_le_one hWq).mpr h0q, by positivity, (div_le_one hWq).mpr h1q⟩

/-- The pass at stride `s` for scale `s`, in exact arithmetic: every coordinate lies in
`[0, 1]`, the box of row `h` and column `w` is `(w*s/W, h*s/H, (w+1)*s/W, (h+1)*s/H)`, and
neighbouring boxes share their edge. -/
theorem passValues_fallback (s W H : Nat) (hW : 0 < W) (hH : 0 < H) :
    (∀ x ∈ passValues s s W H, 0 ≤ x ∧ x ≤ 1)
      ∧ (∀ h w, h < H / s → w < W / s →
          ((passValues s s W H).drop (4 * (h * (W / s) + w))).take 4
            = [((w : ℚ) * s) / W, ((h : ℚ) * s) / H, (((w : ℚ) + 1) * s) / W,
                (((h : ℚ) + 1) * s) / H])
      ∧ (∀ h w, h < H / s → w + 1 < W / s →
          (passValues s s W H)[4 * (h * (W / s) + w) + 2]?
            = (passValues s s W H)[4 * (h * (W / s) + (w + 1))]?)
      ∧ (∀ h w, h + 1 < H / s → w < W / s →
          (passValues s s W H)[4 * (h * (W / s) + w) + 3]?
            = (passValues s s W H)[4 * ((h + 1) * (W / s) + w) + 1]?) := by
  have hbox : ∀ h w, h < H / s → w < W / s →
      ((passValues s s W H).drop (4 * (h * (W / s) + w))).take 4
        = [((w : ℚ) * s) / W, ((h : ℚ) * s) / H, (((w : ℚ) + 1) * s) / W,
            (((h : ℚ) + 1) * s) / H] := by
    intro h w hh hw
    have := passValues_box s s W H h w (by rwa [tdiv_toNat_natCast])
      (by rwa [tdiv_toNat_natCast])
    rw [tdiv_toNat_natCast] at this
    rw [this, emitBox_fallback]
  refine ⟨?_, hbox, ?_, ?_⟩
  · intro x hx
    obtain ⟨h, w, hh, hw, hx⟩ := mem_passValues _ _ _ _ x hx
    rw [tdiv_toNat_natCast] at hh hw
    rw [emitBox_fallback] at hx
    obtain ⟨a1, a2, a3, a4⟩ := coordinate_bounds W s w hW hw
    obtain ⟨b1, b2, b3, b4⟩ := coordinate_bounds H s h hH hh
    simp only [List.mem_cons, List.mem_singleton, List.not_mem_nil, or_false] at hx
    rcases hx with rfl | rfl | rfl | rfl
    · exact ⟨a1, a2⟩
    · exact ⟨b1, b2⟩
    · exact ⟨a3, a4⟩
    · exact ⟨b3, b4⟩
  · intro h w hh hw
    obtain ⟨_, _, e1, _⟩ := getElem?_of_drop_take _ _ _ _ _ _ (hbox h w hh (by omega))
    obtain ⟨e2, _, _, _⟩ := getElem?_of_drop_take _ _ _ _ _ _ (hbox h (w + 1) hh hw)
    rw [e1, e2]
    push_cast
    rfl
  · intro h w hh hw
    obtain ⟨_, _, _, e1⟩ := getElem?_of_drop_take _ _ _ _ _ _ (hbox h w (by omega) hw)
    obtain ⟨_, e2, _, _⟩ := getElem?_of_drop_take _ _ _ _ _ _ (hbox (h + 1) w hh hw)
    rw [e1, e2]
    push_cast
    rfl

/-! ## The centres as `float` -/

theorem roundHalfEven_intCast (M : Int) : roundHalfEven (M : ℚ) = M := by
  simp [roundHalfEven]

/-- A half-integer `N / 2` with `N < 2 ^ 24` is a `float`: the conversion keeps it. -/
theorem toFloat_half (N : Nat) (h0 : 0 < N) (hN : N < 2 ^ 24) :
    toFloat ((N : ℚ) / 2) = (N : ℚ) / 2 := by
  have hx : (0 : ℚ) < (N : ℚ) / 2 := by positivity
  have hlt : (N : ℚ) / 2 < ((2 : ℕ) : ℚ) ^ (23 : ℤ) := by
    have h24 : (N : ℚ) < 16777216 := by exact_mod_cast hN
    norm_num
    linarith
  have he : Int.log 2 ((N : ℚ) / 2) < 23 :=
    (Int.lt_zpow_iff_log_lt (by norm_num) hx).mp hlt
  obtain ⟨k, hk⟩ : ∃ k : ℕ, Int.log 2 ((N : ℚ) / 2) - 23 = -((k : ℤ) + 1) :=
    ⟨(22 - Int.log 2 ((N : ℚ) / 2)).toNat, by omega⟩
  have hu : (2 : ℚ) ^ (-((k : ℤ) + 1)) = ((2 : ℚ) ^ (k + 1))⁻¹ := by
    rw [zpow_neg]; norm_cast
  have hq : (N : ℚ) / 2 / ((2 : ℚ) ^ (k + 1))⁻¹ = ((N * 2 ^ k : ℤ) : ℚ) := by
    push_cast; field_simp; ring
  unfold toFloat
  simp only [abs_of_pos hx, hk, hu, hq, roundHalfEven_intCast]
  push_cast; field_simp; ring

/-- The half-integer `8388608.5` lies between the floats `8388608` and `8388609`; the tie
goes to the even one. -/
theorem toFloat_tie : toFloat (16777217 / 2) = 8388608 := by
  have hx : (0 : ℚ) < 16777217 / 2 := by norm_num
  have h1 : (23 : ℤ) ≤ Int.log 2 ((16777217 : ℚ) / 2) :=
    (Int.zpow_le_iff_le_log (by norm_num) hx).mp (by norm_num)
  have h2 : Int.log 2 ((16777217 : ℚ) / 2) < 24 :=
    (Int.lt_zpow_iff_log_lt (by norm_num) hx).mp (by norm_num)
  have he : Int.log 2 ((16777217 : ℚ) / 2) = 23 := by omega
  have hf : ⌊((16777217 : ℚ) / 2)⌋ = 8388608 := by
    rw [Int.floor_eq_iff]; norm_num
  unfold toFloat
  simp only [abs_of_pos hx, he, sub_self, zpow_zero, div_one, mul_one, roundHalfEven, hf]
  norm_num

/-- Every centre of the pass at stride `s` over an extent `W ≤ 2 ^ 23` is a `float`. -/
theorem toFloat_center (s W w : Nat) (hs : 0 < s) (bW : W ≤ 8388608) (hw : w < W / s) :
    toFloat (((w : ℚ) + 1 / 2) * ((s : Int) : ℚ)) = ((w : ℚ) + 1 / 2) * ((s : Int) : ℚ) := by
  have h1 : (w + 1) * s ≤ W :=
    le_trans (Nat.mul_le_mul_right s hw) (Nat.div_mul_le_self W s)
  have hN : (2 * w + 1) * s < 2 ^ 24 := by
    have : (2 * w + 1) * s < 2 * ((w + 1) * s) := by nlinarith
    omega
  have e : ((w : ℚ) + 1 / 2) * ((s : Int) : ℚ) = (((2 * w + 1) * s : Nat) : ℚ) / 2 := by
    push_cast; ring
  rw [e]
  exact toFloat_half _ (Nat.mul_pos (by omega) hs) hN

theorem emitBoxF_append (s t W H : Int) (h w : Nat) (top : List ℚ) :
    emitBoxF s t W H h w top = top ++ emitBoxF s t W H h w [] := by
  simp [emitBoxF]

theorem length_emitBoxF_nil (s t W H : Int) (h w : Nat) :
    (emitBoxF s t W H h w []).length = 4 := by
  simp [emitBoxF]

theorem tilePassF_of_ne (s t W H : Int) (top : List ℚ) (ht : t ≠ 0) :
    tilePassF s t W H top = some (top ++ passValuesF s t W H) := by
  have inner : ∀ (h : Nat) (acc : List ℚ),
      (List.range (Int.tdiv W t).toNat).foldl
        (fun top_data w => emitBoxF s t W H h w top_data) acc
        = acc ++ (List.range (Int.tdiv W t).toNat).flatMap
            fun w => emitBoxF s t W H h w [] := by
    intro h acc
    have e : (fun (top_data : List ℚ) (w : Nat) => emitBoxF s t W H h w top_data)
        = fun top_data w => top_data ++ emitBoxF s t W H h w [] := by
      funext a w; exact emitBoxF_append s t W H h w a
    rw [e, foldl_append_flatMap]
  simp only [tilePassF, if_neg ht, inner, foldl_append_flatMap, passValuesF]

theorem passValuesF_box (s t W H : Int) (h w : Nat)
    (hh : h < (Int.tdiv H t).toNat) (hw : w < (Int.tdiv W t).toNat) :
    ((passValuesF s t W H).drop (4 * (h * (Int.tdiv W t).toNat + w))).take 4
      = emitBoxF s t W H h w [] := by
  set nw := (Int.tdiv W t).toNat with hnw
  have hrowlen : ∀ h, ((List.range nw).flatMap fun w => emitBoxF s t W H h w []).length
      = 4 * nw := by
    intro h
    simpa using length_flatMap_const (fun w => emitBoxF s t W H h w []) 4
      (fun w => length_emitBoxF_nil s t W H h w) (List.range nw)
  have hrow := drop_take_flatMap_range
    (fun h => (List.range nw).flatMap fun w => emitBoxF s t W H h w []) (4 * nw)
    hrowlen (Int.tdiv H t).toNat h hh
  have hbox := drop_take_flatMap_range (fun w => emitBoxF s t W H h w []) 4
    (fun w => length_emitBoxF_nil s t W H h w) nw w hw
  change (((List.range nw).flatMap fun w => emitBoxF s t W H h w []).drop (4 * w)).take 4
    = emitBoxF s t W H h w [] at hbox
  change ((passValuesF s t W H).drop (4 * nw * h)).take (4 * nw)
    = (List.range nw).flatMap fun w => emitBoxF s t W H h w [] at hrow
  rw [← hbox, ← hrow, List.drop_take, List.take_take, List.drop_drop]
  have e1 : min 4 (4 * nw - 4 * w) = 4 := by omega
  have e2 : 4 * nw * h + 4 * w = 4 * (h * nw + w) := by ring
  have e3 : 4 * w + 4 * nw * h = 4 * (h * nw + w) := by ring
  simp only [e1, e2, e3]

theorem meanStoresF_fallback (s : Nat) (W H : Int) (hs : 0 < s) (h32 : s ≠ 32)
    (h64 : s ≠ 64) : meanStoresF [(s : ℚ)] W H = some (passValuesF s s W H) := by
  have hs0 : (s : Int) ≠ 0 := by omega
  have hs32 : (s : Int) ≠ 32 := by omega
  have hs64 : (s : Int) ≠ 64 := by omega
  simp [meanStoresF, scaleBodyF, toInt_natCast, hs0, hs32, hs64, tilePassF_of_ne]

theorem flatMap_range_congr {β : Type} (f g : Nat → List β) (n : Nat)
    (h : ∀ i, i < n → f i = g i) : (List.range n).flatMap f = (List.range n).flatMap g := by
  induction n with
  | zero => rfl
  | succ n ih =>
    rw [List.range_succ, List.flatMap_append, List.flatMap_append,
      ih fun i hi => h i (Nat.lt_succ_of_lt hi), List.flatMap_singleton,
      List.flatMap_singleton, h n (Nat.lt_succ_self n)]

/-- Over extents of at most `2 ^ 23` the narrowing of the centres to `float` changes
nothing in the pass at stride `s`. -/
theorem passValuesF_eq_passValues (s W H : Nat) (hs : 0 < s) (bW : W ≤ 8388608)
    (bH : H ≤ 8388608) : passValuesF s s W H = passValues s s W H := by
  unfold passValuesF passValues rowValues
  apply flatMap_range_congr
  intro h hh
  apply flatMap_range_congr
  intro w hw
  rw [tdiv_toNat_natCast] at hh hw
  simp only [emitBoxF, emitBox, toFloat_center s W w hs bW hw, toFloat_center s H h hs bH hh]

/-- C19 fails as stated, once the narrowing of the centres to `float` is taken into
account: for the single scale 1 on an image of width `8388609 = 2 ^ 23 + 1` and height 1,
the centre `8388607.5` of column 8388607 is a `float` but the centre `8388608.5` of column
8388608 is rounded to `8388608`; the `x_max` of the former box is `8388608 / 8388609` and
the `x_min` of the latter is `8388607.5 / 8388609`, so the two boxes overlap. -/
theorem C19_counterexample :
    ∃ vals, meanStoresF [1] 8388609 1 = some vals
      ∧ vals[4 * 8388607 + 2]? = some (8388608 / 8388609)
      ∧ vals[4 * 8388608]? = some ((16777215 / 2) / 8388609)
      ∧ vals[4 * 8388607 + 2]? ≠ vals[4 * 8388608]? := by
  have hm : meanStoresF [1] 8388609 1 = some (passValuesF 1 1 8388609 1) := by
    simpa using meanStoresF_fallback 1 8388609 1 (by decide) (by decide) (by decide)
  have tW : (Int.tdiv 8388609 1).toNat = 8388609 := by decide
  have c0 : (((0 : Nat) : ℚ) + 1 / 2) * ((1 : Int) : ℚ) = ((1 : Nat) : ℚ) / 2 := by norm_num
  have c1 : (((8388607 : Nat) : ℚ) + 1 / 2) * ((1 : Int) : ℚ)
      = ((16777215 : Nat) : ℚ) / 2 := by norm_num
  have c2 : (((8388608 : Nat) : ℚ) + 1 / 2) * ((1 : Int) : ℚ) = 16777217 / 2 := by norm_num
  have f0 := toFloat_half 1 (by decide) (by decide)
  have f1 := toFloat_half 16777215 (by decide) (by decide)
  have b1 := passValuesF_box 1 1 8388609 1 0 8388607 (by decide) (by rw [tW]; decide)
  have b2 := passValuesF_box 1 1 8388609 1 0 8388608 (by decide) (by rw [tW]; decide)
  rw [tW] at b1 b2
  simp only [emitBoxF, List.nil_append, List.cons_append, c0, c1, c2, f0, f1, toFloat_tie,
    Nat.zero_mul, Nat.zero_add] at b1 b2
  obtain ⟨_, _, e1, _⟩ := getElem?_of_drop_take _ _ _ _ _ _ b1
  obtain ⟨e2, _, _, _⟩ := getElem?_of_drop_take _ _ _ _ _ _ b2
  refine ⟨passValuesF 1 1 8388609 1, hm, ?_, ?_, ?_⟩
  · rw [e1]; norm_num
  · rw [e2]; norm_num
  · rw [e1, e2]; norm_num

/-- C19 (amended): for the single scale `s`, a positive integer other than 32 and 64, and a
positive image extent of at most `2 ^ 23 = 8388608` in width and in height, the narrowing of
the centres to `float` changes nothing: the stores are those of the pass at stride `s`
computed exactly; every stored coordinate lies in `[0, 1]`; the box of row `h` and column
`w` is `(w*s/W, h*s/H, (w+1)*s/W, (h+1)*s/H)`; so the `x_max` of column `w` is the `x_min`
of column `w + 1` and the `y_max` of row `h` is the `y_min` of row `h + 1`: the boxes tile
without overlap. -/
theorem C19_fallback_tiling (s W H : Nat) (hs : 0 < s) (h32 : s ≠ 32) (h64 : s ≠ 64)
    (hW : 0 < W) (hH : 0 < H) (bW : W ≤ 8388608) (bH : H ≤ 8388608) :
    ∃ vals, meanStoresF [(s : ℚ)] (W : Int) (H : Int) = some vals
      ∧ meanStores [(s : ℚ)] (W : Int) (H : Int) = some vals
      ∧ (∀ x ∈ vals, 0 ≤ x ∧ x ≤ 1)
      ∧ (∀ h w, h < H / s → w < W / s →
          (vals.drop (4 * (h * (W / s) + w))).take 4
            = [((w : ℚ) * s) / W, ((h : ℚ) * s) / H, (((w : ℚ) + 1) * s) / W,
                (((h : ℚ) + 1) * s) / H])
      ∧ (∀ h w, h < H / s → w + 1 < W / s →
          vals[4 * (h * (W / s) + w) + 2]? = vals[4 * (h * (W / s) + (w + 1))]?)
      ∧ (∀ h w, h + 1 < H / s → w < W / s →
          vals[4 * (h * (W / s) + w) + 3]? = vals[4 * ((h + 1) * (W / s) + w) + 1]?) := by
  have hs0 : (s : Int) ≠ 0 := by omega
  have hs32 : (s : Int) ≠ 32 := by omega
  have hs64 : (s : Int) ≠ 64 := by omega
  obtain ⟨p1, p2, p3, p4⟩ := passValues_fallback s W H hW hH
  refine ⟨passValues s s W H, ?_, ?_, p1, p2, p3, p4⟩
  · rw [meanStoresF_fallback s W H hs h32 h64, passValuesF_eq_passValues s W H hs bW bH]
  · rw [meanStores_singleton, toInt_natCast]
    simp [scaleValues, hs0, hs32, hs64]

theorem C19_fallback_tiling_witness :
    ∃ vals, meanStoresF [((50 : Nat) : ℚ)] ((150 : Nat) : Int) ((100 : Nat) : Int) = some vals
      ∧ meanStores [((50 : Nat) : ℚ)] ((150 : Nat) : Int) ((100 : Nat) : Int) = some vals
      ∧ (∀ x ∈ vals, 0 ≤ x ∧ x ≤ 1)
      ∧ (∀ h w, h < 100 / 50 → w < 150 / 50 →
          (vals.drop (4 * (h * (150 / 50) + w))).take 4
            = [((w : ℚ) * (50 : Nat)) / (150 : Nat), ((h : ℚ) * (50 : Nat)) / (100 : Nat),
                (((w : ℚ) + 1) * (50 : Nat)) / (150 : Nat),
                (((h : ℚ) + 1) * (50 : Nat)) / (100 : Nat)])
      ∧ (∀ h w, h < 100 / 50 → w + 1 < 150 / 50 →
          vals[4 * (h * (150 / 50) + w) + 2]? = vals[4 * (h * (150 / 50) + (w + 1))]?)
      ∧ (∀ h w, h + 1 < 100 / 50 → w < 150 / 50 →
          vals[4 * (h * (150 / 50) + w) + 3]? = vals[4 * ((h + 1) * (150 / 50) + w) + 1]?) :=
  C19_fallback_tiling 50 150 100 (by decide) (by decide) (by decide) (by decide) (by decide)
    (by decide) (by decide)

/-! ## The two variance fills -/

theorem eq_replicate_of_repeatsPattern (v : ℚ) (vs : List ℚ)
    (h : repeatsPattern [v, v, v, v] vs) : vs = List.replicate vs.length v := by
  apply List.ext_getElem?
  intro k
  by_cases hk : k < vs.length
  · rw [h.2 k hk, List.getElem?_replicate, if_pos hk]
    have h4 : k % 4 < 4 := Nat.mod_lt k (by decide)
    interval_cases k % 4 <;> rfl
  · rw [List.getElem?_eq_none (by omega), List.getElem?_eq_none (by simp; omega)]

theorem varianceStores_same (v : ℚ) (np : Int) (lw lh : Nat) (hn : 0 ≤ np) :
    varianceStores [v, v, v, v] np lw lh = some (caffe_set (lh * lw * np * 4) v) := by
  obtain ⟨vs, hvs, hvl, hpat⟩ := varianceStores_four [v, v, v, v] np lw lh rfl
  simp only [Int.toNat_natCast] at hvl
  have hdim : ((lh : Int) * lw * np * 4).toNat = 4 * np.toNat * lw * lh := by
    have : (lh : Int) * lw * np * 4 = ((4 * np.toNat * lw * lh : Nat) : Int) := by
      push_cast
      rw [Int.toNat_of_nonneg hn]
      ring
    rw [this, Int.toNat_natCast]
  rw [hvs, caffe_set, hdim, ← hvl]
  exact congrArg some (eq_replicate_of_repeatsPattern v vs hpat)

/-- C20: the two variance fills agree.  For every `v`, every grid extent and every number
of priors (not negative), the four nested loops run with the variance list `[v, v, v, v]`
make exactly the stores that `caffe_set` makes with the list `[v]`, and `Forward_cpu` gives
the same result (in particular the same variance plane) for the two lists. -/
theorem C20_variance_fills_agree (L : PriorBoxLayer) (v : ℚ) (layer_width layer_height : Nat)
    (img_width img_height : Int) (top : List ℚ) (hn : 0 ≤ L.num_priors_) :
    varianceStores [v, v, v, v] L.num_priors_ layer_width layer_height
        = some (caffe_set ((layer_height : Int) * layer_width * L.num_priors_ * 4) v)
      ∧ Forward_cpu { L with variance_ := [v, v, v, v] } layer_width layer_height
            img_width img_height top
          = Forward_cpu { L with variance_ := [v] } layer_width layer_height
            img_width img_height top := by
  have hvs := varianceStores_same v L.num_priors_ layer_width layer_height hn
  refine ⟨hvs, ?_⟩
  have r4 : varianceRun { L with variance_ := [v, v, v, v] } layer_width layer_height
      = some (caffe_set ((layer_height : Int) * layer_width * L.num_priors_ * 4) v) := by
    simp only [varianceRun, List.length_cons, List.length_nil]
    rw [if_neg (by decide)]
    exact hvs
  have r1 : varianceRun { L with variance_ := [v] } layer_width layer_height
      = some (caffe_set ((layer_height : Int) * layer_width * L.num_priors_ * 4) v) := by
    simp [varianceRun]
  rw [Forward_cpu_eq, Forward_cpu_eq, r4, r1]
  rfl

theorem C20_variance_fills_agree_witness :
    varianceStores [1 / 10, 1 / 10, 1 / 10, 1 / 10] 21 (2 : Nat) (3 : Nat)
        = some (caffe_set (((3 : Nat) : Int) * (2 : Nat) * 21 * 4) (1 / 10))
      ∧ Forward_cpu
            { ({ min_sizes_ := [32, 64, 128], aspect_ratios_ := [1], num_priors_ := 21,
                 variance_ := [], offset_ := false } : PriorBoxLayer) with
              variance_ := [1 / 10, 1 / 10, 1 / 10, 1 / 10] }
            (2 : Nat) (3 : Nat) 64 96 (List.replicate 1008 0)
          = Forward_cpu
            { ({ min_sizes_ := [32, 64, 128], aspect_ratios_ := [1], num_priors_ := 21,
                 variance_ := [], offset_ := false } : PriorBoxLayer) with
              variance_ := [1 / 10] }
            (2 : Nat) (3 : Nat) 64 96 (List.replicate 1008 0) :=
  C20_variance_fills_agree ⟨[32, 64, 128], [1], 21, [], false⟩ (1 / 10) 2 3 64 96
    (List.replicate 1008 0) (by decide)

end PriorBox
